import Mathlib

/-!
# Verification of the IQPuzzler core (pieces.js, solver.js, challenges.js)

A shallow embedding of the puzzle core of the IQPuzzler repository:

* `pieces.js` — piece definitions, shape transformations (`normalize`,
  `rotate90CW`, `flipH`), and the orientation precomputation
  (`getAllOrientations`, `ORIENTATIONS`).
* `solver.js` — board primitives (`findFirstEmpty`, `canPlace`,
  `placePiece`, `removePiece`), island pruning (`hasDeadIslands`,
  `bfsRegionSize`), the backtracking packer (`solve` / `_solve`,
  `solveWithOrder` / `_solveOrdered`), the capped counter
  (`countSolutions` / `_countSolve`) and the puzzle generator
  (`generateChallenge`).
* `challenges.js` — the seeded shuffle (`seededRandom`,
  `shuffleWithRng`) and the bulk challenge builder
  (`buildChallengesFromSolutions`).

Modelling conventions:

* JS `null` in a board cell is `none`; an occupied cell holds
  `some pieceId`.
* Boards are lists of rows of cells.  All reads in the source are
  guarded by `0 ≤ r < ROWS` and `0 ≤ c < COLS` before indexing, so a
  read of a missing list entry is mapped to `none`; writes out of the
  physical list range are mapped to no-ops (`List.set` semantics).
  On well-formed 5×11 boards — the only boards the source ever builds —
  this coincides with the JS behaviour.
* A JS `Set` of piece ids is modelled as a `List String` in insertion
  order: `Set.delete` is `List.erase` and `Set.add` of an absent
  element appends at the end (deleting and re-adding an element moves
  it to the end, exactly as in JS).  The mutated set and board are
  threaded through the search explicitly.
* The recursion of `_solve`/`_countSolve` always decreases the number
  of remaining pieces, so a fuel of `remaining.length + 1` makes the
  fuel-indexed embedding exact.
-/

namespace IQPuzzler

/-- A board cell: `none` is JS `null` (empty), `some id` holds a piece id. -/
abbrev Cell := Option String

/-- A board: a list of rows, each a list of cells (5 rows × 11 columns
in every board the source constructs). -/
abbrev Board := List (List Cell)

/-- A shape: a list of `(col, row)` cells, as in `pieces.js`. -/
abbrev Shape := List (Int × Int)

/-- `const ROWS = 5` in `solver.js`. -/
def ROWS : Int := 5

/-- `const COLS = 11` in `solver.js`. -/
def COLS : Int := 11

/-- A piece from `pieces.js`: id and base shape (colour/name are
display-only metadata and are omitted). -/
structure Piece where
  id : String
  shape : Shape
deriving DecidableEq

/-- The `PIECES` array of `pieces.js` (ids and shapes). -/
def PIECES : List Piece := [
  ⟨"A", [(0,0), (1,0), (2,0), (2,1)]⟩,
  ⟨"B", [(0,0), (1,0), (1,1), (2,1), (2,2)]⟩,
  ⟨"C", [(0,0), (1,0), (2,0), (1,1)]⟩,
  ⟨"D", [(0,0), (1,0), (2,0), (3,0), (3,1)]⟩,
  ⟨"E", [(0,0), (1,0), (1,1), (2,1), (3,1)]⟩,
  ⟨"F", [(0,0), (1,0), (2,0), (3,0), (1,1)]⟩,
  ⟨"G", [(0,0), (0,1), (1,1), (2,1), (3,1)]⟩,
  ⟨"H", [(0,0), (1,0), (2,0), (3,0), (0,1)]⟩,
  ⟨"I", [(0,0), (1,0), (2,0), (0,1), (2,1)]⟩,
  ⟨"J", [(0,0), (0,1), (1,1), (1,2), (2,2)]⟩,
  ⟨"K", [(0,0), (1,0), (0,1), (1,1)]⟩,
  ⟨"L", [(0,0), (1,0), (2,0)]⟩]

/-- `PIECE_MAP[pid].shape.length`: the ball count of a library piece
(`0` for an id outside the library, which the source never queries). -/
def pieceSize (pid : String) : Nat :=
  ((PIECES.find? (fun p => p.id == pid)).map (fun p => p.shape.length)).getD 0

/-- Minimum column of a shape (`Math.min(...shape.map(([c]) => c))`);
the value for `[]` is irrelevant (it is only used under a `map` over
the same list). -/
def minColOf (shape : Shape) : Int :=
  match shape.map Prod.fst with
  | [] => 0
  | x :: xs => xs.foldl min x

/-- Minimum row of a shape. -/
def minRowOf (shape : Shape) : Int :=
  match shape.map Prod.snd with
  | [] => 0
  | x :: xs => xs.foldl min x

/-- Maximum row of a shape (`Math.max(...shape.map(([, r]) => r))`). -/
def maxRowOf (shape : Shape) : Int :=
  match shape.map Prod.snd with
  | [] => 0
  | x :: xs => xs.foldl max x

/-- Maximum column of a shape. -/
def maxColOf (shape : Shape) : Int :=
  match shape.map Prod.fst with
  | [] => 0
  | x :: xs => xs.foldl max x

/-- The comparator of `normalize`: `a[1] - b[1] || a[0] - b[0]`,
i.e. row-major (row ascending, then column ascending).  Cells that
compare equal under this order are equal, so every correct sort —
including the stable JS `Array.sort` — produces the same output; the
model sorts with the stable `List.insertionSort`. -/
def cellLE (a b : Int × Int) : Prop :=
  a.2 < b.2 ∨ (a.2 = b.2 ∧ a.1 ≤ b.1)

instance : DecidableRel cellLE := fun a b => by
  unfold cellLE; infer_instance

/-- `normalize(shape)` from `pieces.js`: translate so min col = 0 and
min row = 0, then sort in reading order. -/
def normalize (shape : Shape) : Shape :=
  let mc := minColOf shape
  let mr := minRowOf shape
  (shape.map (fun cr => (cr.1 - mc, cr.2 - mr))).insertionSort cellLE

/-- `rotate90CW(shape)`: `(col, row) → (maxRow − row, col)`, then
normalize. -/
def rotate90CW (shape : Shape) : Shape :=
  let mr := maxRowOf shape
  normalize (shape.map (fun cr => (mr - cr.2, cr.1)))

/-- `flipH(shape)`: `(col, row) → (maxCol − col, row)`, then
normalize. -/
def flipH (shape : Shape) : Shape :=
  let mc := maxColOf shape
  normalize (shape.map (fun cr => (mc - cr.1, cr.2)))

/-- The inner loop of `getAllOrientations`: perform `n` steps of
"record the current shape unless already seen, then rotate".  The JS
dedup set is keyed by `shapeKey`, which is injective on shapes, so
membership in the accumulated list is an exact model. -/
def addOrientations : Nat → Shape → List Shape → List Shape
  | 0, _, acc => acc
  | n + 1, current, acc =>
    let acc' := if acc.contains current then acc else acc ++ [current]
    addOrientations n (rotate90CW current) acc'

/-- `getAllOrientations(baseShape)` from `pieces.js`: all distinct
normalized shapes from the base and its horizontal mirror, each rotated
up to three times, deduplicated preserving insertion order. -/
def getAllOrientations (baseShape : Shape) : List Shape :=
  let normalized := normalize baseShape
  addOrientations 4 (flipH normalized) (addOrientations 4 normalized [])

/-- The `ORIENTATIONS` table of `pieces.js`, as computed at module
load: orientation list of the library piece with a given id (`[]` off
the library, which the source never queries). -/
def ORIENTATIONS_spec (pid : String) : List Shape :=
  ((PIECES.find? (fun p => p.id == pid)).map
    (fun p => getAllOrientations p.shape)).getD []

/-- The `ORIENTATIONS` table with its entries written out.
`ORIENTATIONS_eq_spec` proves the table equal to the recomputation
`ORIENTATIONS_spec`; the solver functions below use this unfolded form
(the source also uses the precomputed table, not per-call
recomputation). -/
def ORIENTATIONS (pid : String) : List Shape :=
  if pid == "A" then [[(0, 0), (1, 0), (2, 0), (2, 1)], [(1, 0), (1, 1), (0, 2), (1, 2)], [(0, 0), (0, 1), (1, 1), (2, 1)], [(0, 0), (1, 0), (0, 1), (0, 2)], [(0, 0), (1, 0), (2, 0), (0, 1)], [(0, 0), (1, 0), (1, 1), (1, 2)], [(2, 0), (0, 1), (1, 1), (2, 1)], [(0, 0), (0, 1), (0, 2), (1, 2)]] else
  if pid == "B" then [[(0, 0), (1, 0), (1, 1), (2, 1), (2, 2)], [(2, 0), (1, 1), (2, 1), (0, 2), (1, 2)], [(0, 0), (0, 1), (1, 1), (1, 2), (2, 2)], [(1, 0), (2, 0), (0, 1), (1, 1), (0, 2)]] else
  if pid == "C" then [[(0, 0), (1, 0), (2, 0), (1, 1)], [(1, 0), (0, 1), (1, 1), (1, 2)], [(1, 0), (0, 1), (1, 1), (2, 1)], [(0, 0), (0, 1), (1, 1), (0, 2)]] else
  if pid == "D" then [[(0, 0), (1, 0), (2, 0), (3, 0), (3, 1)], [(1, 0), (1, 1), (1, 2), (0, 3), (1, 3)], [(0, 0), (0, 1), (1, 1), (2, 1), (3, 1)], [(0, 0), (1, 0), (0, 1), (0, 2), (0, 3)], [(0, 0), (1, 0), (2, 0), (3, 0), (0, 1)], [(0, 0), (1, 0), (1, 1), (1, 2), (1, 3)], [(3, 0), (0, 1), (1, 1), (2, 1), (3, 1)], [(0, 0), (0, 1), (0, 2), (0, 3), (1, 3)]] else
  if pid == "E" then [[(0, 0), (1, 0), (1, 1), (2, 1), (3, 1)], [(1, 0), (0, 1), (1, 1), (0, 2), (0, 3)], [(0, 0), (1, 0), (2, 0), (2, 1), (3, 1)], [(1, 0), (1, 1), (0, 2), (1, 2), (0, 3)], [(2, 0), (3, 0), (0, 1), (1, 1), (2, 1)], [(0, 0), (0, 1), (0, 2), (1, 2), (1, 3)], [(1, 0), (2, 0), (3, 0), (0, 1), (1, 1)], [(0, 0), (0, 1), (1, 1), (1, 2), (1, 3)]] else
  if pid == "F" then [[(0, 0), (1, 0), (2, 0), (3, 0), (1, 1)], [(1, 0), (0, 1), (1, 1), (1, 2), (1, 3)], [(2, 0), (0, 1), (1, 1), (2, 1), (3, 1)], [(0, 0), (0, 1), (0, 2), (1, 2), (0, 3)], [(0, 0), (1, 0), (2, 0), (3, 0), (2, 1)], [(1, 0), (1, 1), (0, 2), (1, 2), (1, 3)], [(1, 0), (0, 1), (1, 1), (2, 1), (3, 1)], [(0, 0), (0, 1), (1, 1), (0, 2), (0, 3)]] else
  if pid == "G" then [[(0, 0), (0, 1), (1, 1), (2, 1), (3, 1)], [(0, 0), (1, 0), (0, 1), (0, 2), (0, 3)], [(0, 0), (1, 0), (2, 0), (3, 0), (3, 1)], [(1, 0), (1, 1), (1, 2), (0, 3), (1, 3)], [(3, 0), (0, 1), (1, 1), (2, 1), (3, 1)], [(0, 0), (0, 1), (0, 2), (0, 3), (1, 3)], [(0, 0), (1, 0), (2, 0), (3, 0), (0, 1)], [(0, 0), (1, 0), (1, 1), (1, 2), (1, 3)]] else
  if pid == "H" then [[(0, 0), (1, 0), (2, 0), (3, 0), (0, 1)], [(0, 0), (1, 0), (1, 1), (1, 2), (1, 3)], [(3, 0), (0, 1), (1, 1), (2, 1), (3, 1)], [(0, 0), (0, 1), (0, 2), (0, 3), (1, 3)], [(0, 0), (1, 0), (2, 0), (3, 0), (3, 1)], [(1, 0), (1, 1), (1, 2), (0, 3), (1, 3)], [(0, 0), (0, 1), (1, 1), (2, 1), (3, 1)], [(0, 0), (1, 0), (0, 1), (0, 2), (0, 3)]] else
  if pid == "I" then [[(0, 0), (1, 0), (2, 0), (0, 1), (2, 1)], [(0, 0), (1, 0), (1, 1), (0, 2), (1, 2)], [(0, 0), (2, 0), (0, 1), (1, 1), (2, 1)], [(0, 0), (1, 0), (0, 1), (0, 2), (1, 2)]] else
  if pid == "J" then [[(0, 0), (0, 1), (1, 1), (1, 2), (2, 2)], [(1, 0), (2, 0), (0, 1), (1, 1), (0, 2)], [(0, 0), (1, 0), (1, 1), (2, 1), (2, 2)], [(2, 0), (1, 1), (2, 1), (0, 2), (1, 2)]] else
  if pid == "K" then [[(0, 0), (1, 0), (0, 1), (1, 1)]] else
  if pid == "L" then [[(0, 0), (1, 0), (2, 0)], [(0, 0), (0, 1), (0, 2)]] else
  []

/-! ## Board primitives (`solver.js`) -/

/-- `createEmptyBoard()`: a 5×11 grid of `null`. -/
def createEmptyBoard : Board :=
  List.replicate 5 (List.replicate 11 (none : Cell))

/-- `cloneBoard(board)`: `board.map(row => [...row])` — a fresh
board with the same cell values. -/
def cloneBoard (board : Board) : Board :=
  board.map (fun row => row)

/-- Read `board[r][c]`.  The source only reads after checking
`0 ≤ r < ROWS && 0 ≤ c < COLS`; a read outside the physical lists is
mapped to `none`, which coincides with the JS value on the well-formed
5×11 boards the source builds. -/
def getCell (board : Board) (c r : Int) : Cell :=
  if 0 ≤ r ∧ 0 ≤ c then (board.getD r.toNat []).getD c.toNat none
  else none

/-- Write `board[r][c] = v` (no-op outside the physical lists). -/
def setCell (board : Board) (c r : Int) (v : Cell) : Board :=
  if 0 ≤ r ∧ 0 ≤ c then
    board.set r.toNat ((board.getD r.toNat []).set c.toNat v)
  else board

/-- `findFirstEmpty(board)`: first `null` cell scanning rows top-down,
columns left-to-right; returns `(col, row)`. -/
def findFirstEmpty (board : Board) : Option (Int × Int) :=
  (List.range 5).findSome? fun (r : Nat) =>
    (List.range 11).findSome? fun (c : Nat) =>
      if getCell board (c : Int) (r : Int) = none
      then some ((c : Int), (r : Int)) else none

/-- `canPlace(board, shape, col, row)`: every translated cell is in
bounds and currently `null`. -/
def canPlace (board : Board) (shape : Shape) (col row : Int) : Bool :=
  shape.all fun cell =>
    let c := col + cell.1
    let r := row + cell.2
    0 ≤ r && r < ROWS && 0 ≤ c && c < COLS &&
      getCell board c r == none

/-- `placePiece(board, pieceId, shape, col, row)`: mark every
translated cell with the piece id. -/
def placePiece (board : Board) (pieceId : String) (shape : Shape)
    (col row : Int) : Board :=
  shape.foldl (fun b cell => setCell b (col + cell.1) (row + cell.2) (some pieceId)) board

/-- `removePiece(board, pieceId, shape, col, row)`: clear every
translated cell back to `null` (the `pieceId` argument is unused, as in
the source). -/
def removePiece (board : Board) (_pieceId : String) (shape : Shape)
    (col row : Int) : Board :=
  shape.foldl (fun b cell => setCell b (col + cell.1) (row + cell.2) none) board

/-! ## Island pruning (`solver.js`) -/

/-- The 5×11 `visited` grid allocated by `hasDeadIslands`. -/
abbrev Visited := List (List Bool)

/-- Fresh all-false visited grid. -/
def freshVisited : Visited :=
  List.replicate 5 (List.replicate 11 false)

/-- Read `visited[r][c]` (the source only indexes in bounds). -/
def visGet (v : Visited) (c r : Int) : Bool :=
  if 0 ≤ r ∧ 0 ≤ c then (v.getD r.toNat []).getD c.toNat false
  else false

/-- Write `visited[r][c] = true`. -/
def visSet (v : Visited) (c r : Int) : Visited :=
  if 0 ≤ r ∧ 0 ≤ c then
    v.set r.toNat ((v.getD r.toNat []).set c.toNat true)
  else v

/-- The body of the BFS neighbour loop: mark and enqueue one
neighbour if it is in bounds, empty and unvisited. -/
def bfsPush (board : Board) (vq : Visited × List (Int × Int))
    (n : Int × Int) : Visited × List (Int × Int) :=
  if 0 ≤ n.2 && n.2 < ROWS && 0 ≤ n.1 && n.1 < COLS &&
      getCell board n.1 n.2 == none && !(visGet vq.1 n.1 n.2) then
    (visSet vq.1 n.1 n.2, vq.2 ++ [n])
  else vq

/-- One BFS neighbour step of `bfsRegionSize`: mark and enqueue each
in-bounds empty unvisited neighbour (in the source's order
left, right, up, down). -/
def bfsPushNeighbors (board : Board) (c r : Int) :
    Visited × List (Int × Int) → Visited × List (Int × Int) :=
  fun vq =>
    [(c - 1, r), (c + 1, r), (c, r - 1), (c, r + 1)].foldl (bfsPush board) vq

/-- The `while (queue.length > 0)` loop of `bfsRegionSize`, fuelled.
Each iteration dequeues one cell; every enqueued cell is freshly
marked in the 5×11 visited grid, so at most `1 + 55` cells are ever
enqueued and fuel `57` can never run out (`bfsLoop_fuel` below). -/
def bfsLoop : Nat → Board → Visited → List (Int × Int) → Nat → Nat × Visited
  | 0, _, visited, _, size => (size, visited)
  | fuel + 1, board, visited, queue, size =>
    match queue with
    | [] => (size, visited)
    | (c, r) :: rest =>
      let vq := bfsPushNeighbors board c r (visited, rest)
      bfsLoop fuel board vq.1 vq.2 (size + 1)

/-- `bfsRegionSize(board, visited, startCol, startRow)`: size of the
connected empty region of the start cell; also returns the updated
visited grid (mutated in place in the source). -/
def bfsRegionSize (board : Board) (visited : Visited)
    (startCol startRow : Int) : Nat × Visited :=
  bfsLoop 57 board (visSet visited startCol startRow)
    [(startCol, startRow)] 0

/-- The row-major list of grid coordinates `(r, c)` scanned by
`hasDeadIslands`. -/
def gridCells : List (Nat × Nat) :=
  (List.range 5).flatMap fun r => (List.range 11).map fun c => (r, c)

/-- The scan loop of `hasDeadIslands`: BFS each unvisited empty cell;
report `true` as soon as a region smaller than `minPieceSize` is
found. -/
def scanIslands (board : Board) (minPieceSize : Nat) :
    List (Nat × Nat) → Visited → Bool
  | [], _ => false
  | (r, c) :: rest, visited =>
    if getCell board (c : Int) (r : Int) = none ∧
        visGet visited (c : Int) (r : Int) = false then
      let sv := bfsRegionSize board visited (c : Int) (r : Int)
      if sv.1 < minPieceSize then true
      else scanIslands board minPieceSize rest sv.2
    else scanIslands board minPieceSize rest visited

/-- `hasDeadIslands(board, minPieceSize)`: some connected region of
empty cells is smaller than the smallest remaining piece. -/
def hasDeadIslands (board : Board) (minPieceSize : Nat) : Bool :=
  if minPieceSize ≤ 1 then false
  else scanIslands board minPieceSize gridCells freshVisited

/-! ## The backtracking packer (`solve` / `_solve`) -/

/-- A placement as recorded by the solver:
`{ pieceId, shape, col, row, orientationIndex }`. -/
structure Placement where
  pieceId : String
  shape : Shape
  col : Int
  row : Int
  orientationIndex : Nat
deriving DecidableEq

/-- The `newMin` computation of `_solve`/`_countSolve`: smallest ball
count among the remaining pieces, `1` when none remain. -/
def minRemainingSize (remaining : List String) : Nat :=
  match remaining.map pieceSize with
  | [] => 1
  | x :: xs => xs.foldl min x

/-- The candidate sequence tried at one search node: for each remaining
piece (snapshot order), for each of its orientations (with index), for
each cell of the shape — exactly the three nested loops of `_solve`.
Entries are `(pieceId, orientationIndex, shape, shapeCell)`. -/
def candidates (snapshot : List String) :
    List (String × Nat × Shape × (Int × Int)) :=
  snapshot.flatMap fun pid =>
    (ORIENTATIONS pid).enum.flatMap fun oriented =>
      oriented.2.map fun cell => (pid, oriented.1, oriented.2, cell)

/-- The candidate loop of `_solve` at one node: try each candidate,
threading the board and the remaining set (a failed attempt restores
the board with `removePiece` and re-adds the piece id at the end of
the set, as JS `Set.delete`/`Set.add` do).  `recur` is the recursive
call into `_solve` one level deeper. -/
def solveTry (recur : Board → List String → Option (List Placement) × Board × List String)
    (tc tr : Int) : Board → List String →
    List (String × Nat × Shape × (Int × Int)) →
    Option (List Placement) × Board × List String
  | board, cur, [] => (none, board, cur)
  | board, cur, (pid, oi, shape, cell) :: rest =>
    let pc := tc - cell.1
    let pr := tr - cell.2
    if canPlace board shape pc pr then
      let b1 := placePiece board pid shape pc pr
      let cur1 := cur.erase pid
      if hasDeadIslands b1 (minRemainingSize cur1) then
        solveTry recur tc tr (removePiece b1 pid shape pc pr) (cur1 ++ [pid]) rest
      else
        match recur b1 cur1 with
        | (some sol, b2, cur2) =>
          (some (⟨pid, shape, pc, pr, oi⟩ :: sol), b2, cur2)
        | (none, b2, cur2) =>
          solveTry recur tc tr (removePiece b2 pid shape pc pr) (cur2 ++ [pid]) rest
    else
      solveTry recur tc tr board cur rest

/-- `_solve(board, remaining, solution, minPieceSize)`.  Returns the
placements of this subtree on success (`_solve` pushes/pops them on a
shared array), together with the final board and remaining set — both
mutated in place in the source and threaded explicitly here.  The fuel
decreases at each recursion; the recursion depth is bounded by the
number of remaining pieces, so the top-level fuel
`remaining.length + 1` is never exhausted. -/
def solveGo : Nat → Board → List String →
    Option (List Placement) × Board × List String
  | 0, board, remaining => (none, board, remaining)
  | fuel + 1, board, remaining =>
    match findFirstEmpty board with
    | none => (some [], board, remaining)
    | some target =>
      solveTry (solveGo fuel) target.1 target.2 board remaining (candidates remaining)

/-- First-occurrence deduplication with an explicit seen list: the
order of `[...new Set(ids)]` in JS. -/
def dedupSeen (seen : List String) : List String → List String
  | [] => []
  | x :: xs =>
    if x ∈ seen then dedupSeen seen xs
    else x :: dedupSeen (x :: seen) xs

/-- `new Set(ids)` spread back to a list: first occurrences in order. -/
def setDedup (ids : List String) : List String :=
  dedupSeen [] ids

/-- The piece ordering of `solve`: deduplicate (`new Set`), then
stable-sort larger pieces first (`PIECE_MAP[b].shape.length −
PIECE_MAP[a].shape.length`; JS `Array.sort` is stable, as is
`List.insertionSort`). -/
def sortedPieceIds (availablePieceIds : List String) : List String :=
  (setDedup availablePieceIds).insertionSort
    (fun a b => pieceSize b ≤ pieceSize a)

/-- `solve(board, availablePieceIds)`: first-solution search on a
clone of the caller's board. -/
def solve (board : Board) (availablePieceIds : List String) :
    Option (List Placement) :=
  let workBoard := cloneBoard board
  let sortedIds := sortedPieceIds availablePieceIds
  (solveGo (sortedIds.length + 1) workBoard sortedIds).1

/-! ## The ordered variant (`solveWithOrder` / `_solveOrdered`) -/

/-- Candidates of `_solveOrdered`, tagged with the index `i` of the
piece in the remaining array (removal is by index:
`remainingIds.slice(0, i).concat(remainingIds.slice(i + 1))`). -/
def orderedCandidates (remainingIds : List String) :
    List (Nat × String × Nat × Shape × (Int × Int)) :=
  remainingIds.enum.flatMap fun ip =>
    (ORIENTATIONS ip.2).enum.flatMap fun oriented =>
      oriented.2.map fun cell => (ip.1, ip.2, oriented.1, oriented.2, cell)

/-- The candidate loop of `_solveOrdered`. -/
def solveOrderedTry (recur : Board → List String → Option (List Placement) × Board)
    (remainingIds : List String) (tc tr : Int) : Board →
    List (Nat × String × Nat × Shape × (Int × Int)) →
    Option (List Placement) × Board
  | board, [] => (none, board)
  | board, (i, pid, oi, shape, cell) :: rest =>
    let pc := tc - cell.1
    let pr := tr - cell.2
    if canPlace board shape pc pr then
      let b1 := placePiece board pid shape pc pr
      let newRemaining := remainingIds.eraseIdx i
      if hasDeadIslands b1 (minRemainingSize newRemaining) then
        solveOrderedTry recur remainingIds tc tr (removePiece b1 pid shape pc pr) rest
      else
        match recur b1 newRemaining with
        | (some sol, b2) => (some (⟨pid, shape, pc, pr, oi⟩ :: sol), b2)
        | (none, b2) =>
          solveOrderedTry recur remainingIds tc tr (removePiece b2 pid shape pc pr) rest
    else
      solveOrderedTry recur remainingIds tc tr board rest

/-- `_solveOrdered(board, remainingIds, solution, minPieceSize)`:
like `_solve` but the remaining pieces are an immutable array walked
in order; only the board is mutated (threaded here). -/
def solveOrderedGo : Nat → Board → List String →
    Option (List Placement) × Board
  | 0, board, _ => (none, board)
  | fuel + 1, board, remainingIds =>
    match findFirstEmpty board with
    | none => (some [], board)
    | some target =>
      solveOrderedTry (fun b r => solveOrderedGo fuel b r) remainingIds
        target.1 target.2 board (orderedCandidates remainingIds)

/-- `solveWithOrder(board, orderedPieceIds)`. -/
def solveWithOrder (board : Board) (orderedPieceIds : List String) :
    Option (List Placement) :=
  let workBoard := cloneBoard board
  (solveOrderedGo (orderedPieceIds.length + 1) workBoard orderedPieceIds).1

/-! ## The capped counter (`countSolutions` / `_countSolve`) -/

/-- The candidate loop of `_countSolve`: like `solveTry`, but
continues into siblings after a success, short-circuiting as soon as
the counter reaches the cap. -/
def countTry (recur : Board → List String → Nat → Nat × Board × List String)
    (maxCount : Nat) (tc tr : Int) : Board → List String →
    List (String × Nat × Shape × (Int × Int)) → Nat →
    Nat × Board × List String
  | board, cur, [], count => (count, board, cur)
  | board, cur, (pid, _oi, shape, cell) :: rest, count =>
    let pc := tc - cell.1
    let pr := tr - cell.2
    if canPlace board shape pc pr then
      let b1 := placePiece board pid shape pc pr
      let cur1 := cur.erase pid
      if hasDeadIslands b1 (minRemainingSize cur1) then
        countTry recur maxCount tc tr (removePiece b1 pid shape pc pr) (cur1 ++ [pid]) rest count
      else
        match recur b1 cur1 count with
        | (count2, b2, cur2) =>
          if maxCount ≤ count2 then
            (count2, removePiece b2 pid shape pc pr, cur2 ++ [pid])
          else
            countTry recur maxCount tc tr (removePiece b2 pid shape pc pr) (cur2 ++ [pid]) rest count2
    else
      countTry recur maxCount tc tr board cur rest count

/-- `_countSolve(board, remaining, counter, maxCount, minPieceSize)`:
returns the updated counter together with the board and remaining set
(both restored by the source before every return). -/
def countGo : Nat → Board → List String → Nat → Nat →
    Nat × Board × List String
  | 0, board, remaining, count, _ => (count, board, remaining)
  | fuel + 1, board, remaining, count, maxCount =>
    if maxCount ≤ count then (count, board, remaining)
    else
      match findFirstEmpty board with
      | none => (count + 1, board, remaining)
      | some target =>
        countTry (fun b r k => countGo fuel b r k maxCount) maxCount
          target.1 target.2 board remaining (candidates remaining) count

/-- `countSolutions(board, availablePieceIds, maxCount)`: solutions
found, capped at `maxCount`, searching on a clone of the caller's
board. -/
def countSolutions (board : Board) (availablePieceIds : List String)
    (maxCount : Nat) : Nat :=
  let workBoard := cloneBoard board
  let remaining := setDedup availablePieceIds
  (countGo (remaining.length + 1) workBoard remaining 0 maxCount).1

/-! ## Specification notions -/

/-- A coordinate pair `(c, r)` lies on the 5×11 grid. -/
def inGrid (c r : Int) : Prop :=
  0 ≤ c ∧ c < COLS ∧ 0 ≤ r ∧ r < ROWS

instance (c r : Int) : Decidable (inGrid c r) := by
  unfold inGrid; infer_instance

/-- A well-formed board: 5 rows of 11 cells, as built by
`createEmptyBoard` and preserved by every board operation. -/
def BoardWF (board : Board) : Prop :=
  board.length = 5 ∧ ∀ row ∈ board, row.length = 11

instance (board : Board) : Decidable (BoardWF board) := by
  unfold BoardWF; infer_instance

/-- The absolute board cells occupied by `shape` translated by
`(col, row)`. -/
def shapeCells (shape : Shape) (col row : Int) : List (Int × Int) :=
  shape.map fun cell => (col + cell.1, row + cell.2)

/-- The absolute board cells of a placement. -/
def cellsOf (p : Placement) : List (Int × Int) :=
  shapeCells p.shape p.col p.row

/-- Writing a constant value to all cells of a translated shape;
`placePiece` and `removePiece` are its two instances. -/
def writeCells (b : Board) (v : Cell) (shape : Shape) (col row : Int) : Board :=
  shape.foldl (fun b cell => setCell b (col + cell.1) (row + cell.2) v) b

theorem placePiece_eq_writeCells (b : Board) (pid : String) (shape : Shape)
    (col row : Int) : placePiece b pid shape col row = writeCells b (some pid) shape col row := rfl

theorem removePiece_eq_writeCells (b : Board) (pid : String) (shape : Shape)
    (col row : Int) : removePiece b pid shape col row = writeCells b none shape col row := rfl

/-! ## Cell-level lemmas -/

/-- Nat-indexed board read, the core of `getCell`. -/
def natGet (b : Board) (j i : Nat) : Cell :=
  (b.getD i []).getD j none

theorem natGet_def (b : Board) (j i : Nat) :
    natGet b j i = ((b[i]?.getD [])[j]?).getD none := by
  unfold natGet
  rw [List.getD_eq_getElem?_getD, List.getD_eq_getElem?_getD]

theorem getCell_eq_natGet {c r : Int} (b : Board) (hc : 0 ≤ c) (hr : 0 ≤ r) :
    getCell b c r = natGet b c.toNat r.toNat := by
  simp [getCell, natGet, hr, hc]

theorem rowGet_set (row : List Cell) (j j' : Nat) (v : Cell) :
    ((row.set j v).getD j' none) =
      if j = j' ∧ j < row.length then v else row.getD j' none := by
  rw [List.getD_eq_getElem?_getD, List.getD_eq_getElem?_getD, List.getElem?_set]
  rcases eq_or_ne j j' with rfl | hjj
  · rcases Nat.lt_or_ge j row.length with h | h
    · simp [h]
    · simp [Nat.not_lt.mpr h, List.getElem?_eq_none h]
  · simp [hjj]

theorem natGet_setRow (b : Board) (row' : List Cell) (i j' i' : Nat) :
    natGet (b.set i row') j' i' =
      if i = i' ∧ i < b.length then row'.getD j' none else natGet b j' i' := by
  unfold natGet
  rcases eq_or_ne i i' with rfl | hii
  · rcases Nat.lt_or_ge i b.length with h | h
    · rw [List.getD_eq_getElem?_getD (b.set i row') i,
        List.getElem?_set_self (by simpa using h), Option.getD_some]
      simp [h]
    · rw [List.set_eq_of_length_le (by simpa using h)]
      simp [Nat.not_lt.mpr h]
  · rw [List.getD_eq_getElem?_getD (b.set i row') i',
      List.getElem?_set_ne hii, ← List.getD_eq_getElem?_getD]
    simp [hii]

theorem natGet_set (b : Board) (j i j' i' : Nat) (v : Cell) :
    natGet (b.set i ((b.getD i []).set j v)) j' i' =
      if i = i' ∧ j = j' ∧ i < b.length ∧ j < (b.getD i []).length then v
      else natGet b j' i' := by
  rw [natGet_setRow, rowGet_set]
  rcases eq_or_ne i i' with rfl | hii
  · rcases Nat.lt_or_ge i b.length with h | h
    · simp only [true_and, h, and_true]
      rcases eq_or_ne j j' with rfl | hjj
      · simp [natGet_def]
      · simp [hjj, natGet]
    · simp [Nat.not_lt.mpr h]
  · simp [hii]

/-- The effect of `setCell` on a single read. -/
theorem getCell_setCell (b : Board) (c r x y : Int) (v : Cell) :
    getCell (setCell b c r v) x y =
      if x = c ∧ y = r ∧ 0 ≤ r ∧ 0 ≤ c ∧ r.toNat < b.length ∧
          c.toNat < (b.getD r.toNat []).length then v
      else getCell b x y := by
  by_cases hcr : 0 ≤ r ∧ 0 ≤ c
  · rw [setCell, if_pos hcr]
    by_cases hxy : 0 ≤ y ∧ 0 ≤ x
    · rw [getCell_eq_natGet _ hxy.2 hxy.1, getCell_eq_natGet _ hxy.2 hxy.1,
        natGet_set]
      congr 1
      simp only [eq_iff_iff]
      constructor
      · rintro ⟨hi, hj, hb, hrow⟩
        have hx : x = c := by omega
        have hy : y = r := by omega
        exact ⟨hx, hy, hcr.1, hcr.2, by omega, by omega⟩
      · rintro ⟨rfl, rfl, _, _, hb, hrow⟩
        exact ⟨rfl, rfl, hb, hrow⟩
    · have hcond : ¬(x = c ∧ y = r ∧ 0 ≤ r ∧ 0 ≤ c ∧ r.toNat < b.length ∧
          c.toNat < (b.getD r.toNat []).length) := by
        rintro ⟨rfl, rfl, _⟩; exact hxy ⟨hcr.1, hcr.2⟩
      rw [if_neg hcond]
      unfold getCell
      rw [if_neg (by tauto), if_neg (by tauto)]
  · rw [setCell, if_neg hcr]
    have hcond : ¬(x = c ∧ y = r ∧ 0 ≤ r ∧ 0 ≤ c ∧ r.toNat < b.length ∧
        c.toNat < (b.getD r.toNat []).length) := by
      rintro ⟨_, _, h1, h2, _⟩; exact hcr ⟨h1, h2⟩
    rw [if_neg hcond]

theorem setCell_length (b : Board) (c r : Int) (v : Cell) :
    (setCell b c r v).length = b.length := by
  unfold setCell; split <;> simp

theorem setCell_row_length (b : Board) (c r : Int) (v : Cell) (i : Nat) :
    ((setCell b c r v).getD i []).length = (b.getD i []).length := by
  unfold setCell
  split
  · rcases eq_or_ne r.toNat i with heq | hne
    · subst heq
      rcases Nat.lt_or_ge r.toNat b.length with h | h
      · rw [List.getD_eq_getElem?_getD ((b.set r.toNat _)) r.toNat,
          List.getElem?_set_self (by simpa using h),
          Option.getD_some, List.length_set]
      · rw [List.set_eq_of_length_le (by simpa using h)]
    · rw [List.getD_eq_getElem?_getD (b.set r.toNat _) i, List.getElem?_set_ne hne,
        ← List.getD_eq_getElem?_getD]
  · rfl

theorem writeCells_nil (b : Board) (v : Cell) (col row : Int) :
    writeCells b v [] col row = b := rfl

theorem writeCells_cons (b : Board) (v : Cell) (hd : Int × Int) (tl : Shape)
    (col row : Int) :
    writeCells b v (hd :: tl) col row =
      writeCells (setCell b (col + hd.1) (row + hd.2) v) v tl col row := rfl

theorem writeCells_length (shape : Shape) (b : Board) (v : Cell) (col row : Int) :
    (writeCells b v shape col row).length = b.length := by
  induction shape generalizing b with
  | nil => rfl
  | cons hd tl ih => rw [writeCells_cons, ih, setCell_length]

theorem writeCells_row_length (shape : Shape) (b : Board) (v : Cell)
    (col row : Int) (i : Nat) :
    ((writeCells b v shape col row).getD i []).length = (b.getD i []).length := by
  induction shape generalizing b with
  | nil => rfl
  | cons hd tl ih => rw [writeCells_cons, ih, setCell_row_length]

/-- Cells not in the translated shape are untouched by `writeCells`. -/
theorem getCell_writeCells_notMem (shape : Shape) (b : Board) (v : Cell)
    (col row x y : Int) (h : (x, y) ∉ shapeCells shape col row) :
    getCell (writeCells b v shape col row) x y = getCell b x y := by
  induction shape generalizing b with
  | nil => rfl
  | cons hd tl ih =>
    rw [writeCells_cons,
      ih _ (fun hmem => h (by simp [shapeCells] at hmem ⊢; tauto)),
      getCell_setCell, if_neg]
    rintro ⟨rfl, rfl, -⟩
    exact h (by simp [shapeCells])

/-- `BoardWF` in index form. -/
theorem BoardWF_iff (b : Board) :
    BoardWF b ↔ b.length = 5 ∧ ∀ i, i < 5 → (b.getD i []).length = 11 := by
  constructor
  · rintro ⟨hlen, hrow⟩
    refine ⟨hlen, fun i hi => ?_⟩
    have hi' : i < b.length := by omega
    rw [List.getD_eq_getElem?_getD, List.getElem?_eq_getElem hi', Option.getD_some]
    exact hrow _ (List.getElem_mem hi')
  · rintro ⟨hlen, hrow⟩
    refine ⟨hlen, fun row hmem => ?_⟩
    obtain ⟨i, hi, rfl⟩ := List.mem_iff_getElem.mp hmem
    have := hrow i (by omega)
    rwa [List.getD_eq_getElem?_getD, List.getElem?_eq_getElem hi,
      Option.getD_some] at this

/-- Boards with equal dimensions and equal cells are equal. -/
theorem board_ext {b1 b2 : Board} (hlen : b1.length = b2.length)
    (hrow : ∀ i, (b1.getD i []).length = (b2.getD i []).length)
    (hcell : ∀ j i, natGet b1 j i = natGet b2 j i) : b1 = b2 := by
  apply List.ext_getElem?
  intro i
  rcases Nat.lt_or_ge i b1.length with hi | hi
  · have hi2 : i < b2.length := by omega
    rw [List.getElem?_eq_getElem hi, List.getElem?_eq_getElem hi2]
    have hrl : b1[i].length = b2[i].length := by
      have := hrow i
      rwa [List.getD_eq_getElem?_getD, List.getD_eq_getElem?_getD,
        List.getElem?_eq_getElem hi, List.getElem?_eq_getElem hi2] at this
    congr 1
    apply List.ext_getElem?
    intro j
    rcases Nat.lt_or_ge j b1[i].length with hj | hj
    · have hj2 : j < b2[i].length := by omega
      rw [List.getElem?_eq_getElem hj, List.getElem?_eq_getElem hj2]
      have := hcell j i
      rw [natGet_def, natGet_def, List.getElem?_eq_getElem hi,
        List.getElem?_eq_getElem hi2, Option.getD_some, Option.getD_some,
        List.getElem?_eq_getElem hj, List.getElem?_eq_getElem hj2,
        Option.getD_some, Option.getD_some] at this
      exact congrArg some this
    · rw [List.getElem?_eq_none hj, List.getElem?_eq_none (by omega)]
  · rw [List.getElem?_eq_none hi, List.getElem?_eq_none (by omega)]

/-- Pointwise form of `canPlace`. -/
theorem canPlace_iff (b : Board) (shape : Shape) (col row : Int) :
    canPlace b shape col row = true ↔
      ∀ cell ∈ shape, inGrid (col + cell.1) (row + cell.2) ∧
        getCell b (col + cell.1) (row + cell.2) = none := by
  unfold canPlace inGrid ROWS COLS
  simp only [List.all_eq_true, Bool.and_eq_true, decide_eq_true_eq, beq_iff_eq]
  constructor
  · intro h cell hmem
    obtain ⟨⟨⟨⟨h1, h2⟩, h3⟩, h4⟩, h5⟩ := h cell hmem
    exact ⟨⟨h3, h4, h1, h2⟩, h5⟩
  · intro h cell hmem
    obtain ⟨⟨h3, h4, h1, h2⟩, h5⟩ := h cell hmem
    exact ⟨⟨⟨⟨h1, h2⟩, h3⟩, h4⟩, h5⟩

theorem writeCells_WF {b : Board} (h : BoardWF b) (v : Cell) (shape : Shape)
    (col row : Int) : BoardWF (writeCells b v shape col row) := by
  rw [BoardWF_iff] at h ⊢
  refine ⟨by rw [writeCells_length]; exact h.1, fun i hi => ?_⟩
  rw [writeCells_row_length]; exact h.2 i hi

/-- A cell of the translated shape reads back the written value
(on a board physically covering the 5×11 grid). -/
theorem getCell_writeCells_mem (shape : Shape) (b : Board) (v : Cell)
    (col row x y : Int) (hmem : (x, y) ∈ shapeCells shape col row)
    (hx : 0 ≤ x) (hy : 0 ≤ y)
    (hyl : y.toNat < b.length) (hxl : x.toNat < (b.getD y.toNat []).length) :
    getCell (writeCells b v shape col row) x y = v := by
  induction shape generalizing b with
  | nil => simp [shapeCells] at hmem
  | cons hd tl ih =>
    rw [writeCells_cons]
    by_cases htl : (x, y) ∈ shapeCells tl col row
    · exact ih _ htl (by rwa [setCell_length]) (by rwa [setCell_row_length])
    · have hhd : x = col + hd.1 ∧ y = row + hd.2 := by
        simp only [shapeCells, List.map_cons, List.mem_cons] at hmem
        rcases hmem with h | h
        · exact ⟨congrArg Prod.fst h, congrArg Prod.snd h⟩
        · exact absurd h (by simpa [shapeCells] using htl)
      obtain ⟨h1, h2⟩ := hhd
      subst h1; subst h2
      rw [getCell_writeCells_notMem _ _ _ _ _ _ _ htl, getCell_setCell, if_pos]
      exact ⟨rfl, rfl, by omega, by omega, hyl, hxl⟩

/-- `place` followed by `remove` with the same arguments restores the
board, provided the placement was legal (`canPlace`). -/
theorem natGet_eq_getCell (b : Board) (j i : Nat) :
    natGet b j i = getCell b (j : Int) (i : Int) := by
  rw [getCell_eq_natGet _ (Int.ofNat_nonneg j) (Int.ofNat_nonneg i),
    Int.toNat_ofNat, Int.toNat_ofNat]

theorem removePiece_placePiece {b : Board} {pid : String} {shape : Shape}
    {col row : Int} (hWF : BoardWF b)
    (hcan : canPlace b shape col row = true) :
    removePiece (placePiece b pid shape col row) pid shape col row = b := by
  rw [placePiece_eq_writeCells, removePiece_eq_writeCells]
  apply board_ext
  · rw [writeCells_length, writeCells_length]
  · intro i; rw [writeCells_row_length, writeCells_row_length]
  · intro j i
    rw [natGet_eq_getCell, natGet_eq_getCell]
    by_cases hm : ((j : Int), (i : Int)) ∈ shapeCells shape col row
    · obtain ⟨cell, hcell, heq⟩ := List.mem_map.mp hm
      have h1 : col + cell.1 = (j : Int) := congrArg Prod.fst heq
      have h2 : row + cell.2 = (i : Int) := congrArg Prod.snd heq
      obtain ⟨hgrid, hempty⟩ := (canPlace_iff b shape col row).mp hcan cell hcell
      rw [h1, h2] at hgrid hempty
      have hb5 := ((BoardWF_iff b).mp hWF).1
      unfold inGrid ROWS COLS at hgrid
      have h5 : (i : Int).toNat < b.length := by omega
      have h11 : (j : Int).toNat < (b.getD (i : Int).toNat []).length := by
        rw [((BoardWF_iff b).mp hWF).2 _ (by omega)]; omega
      rw [getCell_writeCells_mem shape _ none col row _ _ hm (by omega) (by omega)
        (by rwa [writeCells_length]) (by rwa [writeCells_row_length]), hempty]
    · rw [getCell_writeCells_notMem _ _ _ _ _ _ _ hm,
        getCell_writeCells_notMem _ _ _ _ _ _ _ hm]

/-- A 5×11 board whose top-left cell is already occupied by piece K. -/
def overlapBoard : Board :=
  (some "K" :: List.replicate 10 none) :: List.replicate 4 (List.replicate 11 (none : Cell))

/-- C4 fails as stated: placing piece L over an occupied cell and
removing it clears the cell that piece K occupied, so the board is not
restored.  (`place` is caller-checked; no `fits` test is made.) -/
theorem claim_C4_counterexample :
    removePiece (placePiece overlapBoard "L" [(0,0), (1,0), (2,0)] 0 0)
      "L" [(0,0), (1,0), (2,0)] 0 0 ≠ overlapBoard := by decide

/-- C4 (amended): for every well-formed 5×11 board, piece id, shape
and offset such that the placement is legal (`canPlace` holds —
`place`'s documented caller-checked precondition), placing with
`place` and then removing with `remove` using the same arguments
restores the board to exactly its prior state, cell-for-cell. -/
theorem claim_C4 (b : Board) (pid : String) (shape : Shape) (col row : Int)
    (hWF : BoardWF b) (hcan : canPlace b shape col row = true) :
    removePiece (placePiece b pid shape col row) pid shape col row = b :=
  removePiece_placePiece hWF hcan

/-- Witness for C4 at a concrete legal placement. -/
theorem claim_C4_witness :
    (BoardWF createEmptyBoard ∧
      canPlace createEmptyBoard [(0,0), (1,0), (2,0)] 0 0 = true) ∧
    removePiece (placePiece createEmptyBoard "L" [(0,0), (1,0), (2,0)] 0 0)
      "L" [(0,0), (1,0), (2,0)] 0 0 = createEmptyBoard :=
  ⟨⟨by decide, by decide⟩,
    claim_C4 createEmptyBoard "L" [(0,0), (1,0), (2,0)] 0 0 (by decide) (by decide)⟩

/-! ## The orientation table matches its recomputation -/

/-- The written-out `ORIENTATIONS` table is exactly what
`getAllOrientations` produces from each piece's base shape (and `[]`
off the library, where `PIECE_MAP` lookup is undefined). -/
theorem ORIENTATIONS_eq_spec (pid : String) :
    ORIENTATIONS pid = ORIENTATIONS_spec pid := by
  by_cases hA : pid = "A"; · subst hA; decide
  by_cases hB : pid = "B"; · subst hB; decide
  by_cases hC : pid = "C"; · subst hC; decide
  by_cases hD : pid = "D"; · subst hD; decide
  by_cases hE : pid = "E"; · subst hE; decide
  by_cases hF : pid = "F"; · subst hF; decide
  by_cases hG : pid = "G"; · subst hG; decide
  by_cases hH : pid = "H"; · subst hH; decide
  by_cases hI : pid = "I"; · subst hI; decide
  by_cases hJ : pid = "J"; · subst hJ; decide
  by_cases hK : pid = "K"; · subst hK; decide
  by_cases hL : pid = "L"; · subst hL; decide
  have nA : ("A" == pid) = false := beq_eq_false_iff_ne.mpr (Ne.symm hA)
  have nB : ("B" == pid) = false := beq_eq_false_iff_ne.mpr (Ne.symm hB)
  have nC : ("C" == pid) = false := beq_eq_false_iff_ne.mpr (Ne.symm hC)
  have nD : ("D" == pid) = false := beq_eq_false_iff_ne.mpr (Ne.symm hD)
  have nE : ("E" == pid) = false := beq_eq_false_iff_ne.mpr (Ne.symm hE)
  have nF : ("F" == pid) = false := beq_eq_false_iff_ne.mpr (Ne.symm hF)
  have nG : ("G" == pid) = false := beq_eq_false_iff_ne.mpr (Ne.symm hG)
  have nH : ("H" == pid) = false := beq_eq_false_iff_ne.mpr (Ne.symm hH)
  have nI : ("I" == pid) = false := beq_eq_false_iff_ne.mpr (Ne.symm hI)
  have nJ : ("J" == pid) = false := beq_eq_false_iff_ne.mpr (Ne.symm hJ)
  have nK : ("K" == pid) = false := beq_eq_false_iff_ne.mpr (Ne.symm hK)
  have nL : ("L" == pid) = false := beq_eq_false_iff_ne.mpr (Ne.symm hL)
  simp [ORIENTATIONS, ORIENTATIONS_spec, PIECES, List.find?, hA, hB, hC, hD,
    hE, hF, hG, hH, hI, hJ, hK, hL, nA, nB, nC, nD, nE, nF, nG, nH, nI, nJ,
    nK, nL]

/-! ## C7 and C10: the orientation generator on the piece library -/

/-- C7: for every piece in the library, the orientation generator
produces between 1 and 8 shapes, each normalized (minimum column 0,
minimum row 0, cells sorted row-major), with no two entries equal
(equivalently, since all entries are normalized, no duplicate
normalized forms). -/
theorem claim_C7 : ∀ p ∈ PIECES,
    1 ≤ (getAllOrientations p.shape).length ∧
    (getAllOrientations p.shape).length ≤ 8 ∧
    (∀ s ∈ getAllOrientations p.shape,
      minColOf s = 0 ∧ minRowOf s = 0 ∧ List.Sorted cellLE s) ∧
    (getAllOrientations p.shape).Nodup := by decide

/-- Witness for C7 at piece A. -/
theorem claim_C7_witness :
    (⟨"A", [(0,0), (1,0), (2,0), (2,1)]⟩ : Piece) ∈ PIECES ∧
    (1 ≤ (getAllOrientations [(0,0), (1,0), (2,0), (2,1)]).length ∧
     (getAllOrientations [(0,0), (1,0), (2,0), (2,1)]).length ≤ 8 ∧
     (∀ s ∈ getAllOrientations [(0,0), (1,0), (2,0), (2,1)],
       minColOf s = 0 ∧ minRowOf s = 0 ∧ List.Sorted cellLE s) ∧
     (getAllOrientations [(0,0), (1,0), (2,0), (2,1)]).Nodup) :=
  ⟨by decide, claim_C7 ⟨"A", [(0,0), (1,0), (2,0), (2,1)]⟩ (by decide)⟩

/-- C10: every shape in every library piece's precomputed orientation
table has exactly as many cells as the piece's base shape. -/
theorem claim_C10 : ∀ p ∈ PIECES, ∀ s ∈ ORIENTATIONS p.id,
    s.length = p.shape.length := by decide

/-- Witness for C10 at piece A. -/
theorem claim_C10_witness :
    (⟨"A", [(0,0), (1,0), (2,0), (2,1)]⟩ : Piece) ∈ PIECES ∧
    ∀ s ∈ ORIENTATIONS "A", s.length = 4 :=
  ⟨by decide, claim_C10 ⟨"A", [(0,0), (1,0), (2,0), (2,1)]⟩ (by decide)⟩

/-! ## C8: rotation and reflection round-trip laws -/

instance : IsTrans (Int × Int) cellLE :=
  ⟨by intro a b c hab hbc; unfold cellLE at *; omega⟩

instance : IsTotal (Int × Int) cellLE :=
  ⟨by intro a b; unfold cellLE; omega⟩

instance : IsAntisymm (Int × Int) cellLE := by
  constructor
  intro a b hab hba
  unfold cellLE at hab hba
  have h1 : a.1 = b.1 := by omega
  have h2 : a.2 = b.2 := by omega
  exact Prod.ext h1 h2

instance : Std.Antisymm (fun x y : Int => x ≤ y) := by
  constructor
  intro a b hab hba
  exact le_antisymm hab hba

theorem normalize_def (s : Shape) :
    normalize s = (s.map (fun cr =>
      (cr.1 - minColOf s, cr.2 - minRowOf s))).insertionSort cellLE := rfl

theorem rotate90CW_def (s : Shape) :
    rotate90CW s = normalize (s.map (fun cr => (maxRowOf s - cr.2, cr.1))) := rfl

theorem flipH_def (s : Shape) :
    flipH s = normalize (s.map (fun cr => (maxColOf s - cr.1, cr.2))) := rfl

theorem int_min?_perm {l1 l2 : List Int} (h : l1.Perm l2) :
    l1.min? = l2.min? := by
  cases hm : l1.min? with
  | none =>
    rcases l1 with _ | ⟨x, xs⟩
    · rw [← h.nil_eq]; rfl
    · simp [List.min?] at hm
  | some a =>
    have hiff1 : l1.min? = some a ↔ a ∈ l1 ∧ ∀ b, b ∈ l1 → a ≤ b :=
      List.min?_eq_some_iff (fun x : Int => le_refl x)
        (fun x y => min_choice x y) (fun x y z => le_min_iff)
    have hiff2 : l2.min? = some a ↔ a ∈ l2 ∧ ∀ b, b ∈ l2 → a ≤ b :=
      List.min?_eq_some_iff (fun x : Int => le_refl x)
        (fun x y => min_choice x y) (fun x y z => le_min_iff)
    have h1 := hiff1.mp hm
    symm
    exact hiff2.mpr ⟨h.mem_iff.mp h1.1, fun b hb => h1.2 b (h.mem_iff.mpr hb)⟩

theorem minColOf_eq_min? (s : Shape) :
    minColOf s = ((s.map Prod.fst).min?).getD 0 := by
  unfold minColOf
  rcases h : s.map Prod.fst with _ | ⟨x, xs⟩ <;> simp [List.min?]

theorem minRowOf_eq_min? (s : Shape) :
    minRowOf s = ((s.map Prod.snd).min?).getD 0 := by
  unfold minRowOf
  rcases h : s.map Prod.snd with _ | ⟨x, xs⟩ <;> simp [List.min?]

theorem minColOf_perm {s1 s2 : Shape} (h : s1.Perm s2) :
    minColOf s1 = minColOf s2 := by
  rw [minColOf_eq_min?, minColOf_eq_min?, int_min?_perm (h.map Prod.fst)]

theorem minRowOf_perm {s1 s2 : Shape} (h : s1.Perm s2) :
    minRowOf s1 = minRowOf s2 := by
  rw [minRowOf_eq_min?, minRowOf_eq_min?, int_min?_perm (h.map Prod.snd)]

theorem normalize_sorted (s : Shape) : List.Sorted cellLE (normalize s) :=
  List.sorted_insertionSort cellLE _

theorem normalize_perm (s : Shape) :
    (normalize s).Perm
      (s.map (fun p => (p.1 - minColOf s, p.2 - minRowOf s))) :=
  List.perm_insertionSort cellLE _

/-- `normalize` depends only on the multiset of cells. -/
theorem normalize_congr_perm {s1 s2 : Shape} (h : s1.Perm s2) :
    normalize s1 = normalize s2 := by
  apply List.eq_of_perm_of_sorted _ (normalize_sorted s1) (normalize_sorted s2)
  have hmid : (s1.map (fun p => (p.1 - minColOf s1, p.2 - minRowOf s1))).Perm
      (s2.map (fun p => (p.1 - minColOf s2, p.2 - minRowOf s2))) := by
    rw [minColOf_perm h, minRowOf_perm h]
    exact h.map _
  exact (normalize_perm s1).trans (hmid.trans (normalize_perm s2).symm)

theorem int_min_add (a b c : Int) : min (a + c) (b + c) = min a b + c := by
  rcases le_total a b with h | h
  · rw [min_eq_left h, min_eq_left (by omega)]
  · rw [min_eq_right h, min_eq_right (by omega)]

theorem foldl_min_map_add (xs : List Int) (x c : Int) :
    ((xs.map (fun t => t + c)).foldl min (x + c)) = xs.foldl min x + c := by
  induction xs generalizing x with
  | nil => rfl
  | cons h t ih =>
    simp only [List.map_cons, List.foldl_cons]
    rw [int_min_add, ih]

theorem minColOf_map_add (s : Shape) (u v : Int) (hs : s ≠ []) :
    minColOf (s.map (fun p => (p.1 + u, p.2 + v))) = minColOf s + u := by
  rcases s with _ | ⟨p, t⟩
  · exact absurd rfl hs
  · unfold minColOf
    simp only [List.map_cons, List.map_map]
    have hmap : t.map (Prod.fst ∘ fun p : Int × Int => (p.1 + u, p.2 + v)) =
        (t.map Prod.fst).map (fun x => x + u) := by
      rw [List.map_map]
      apply List.map_congr_left
      intro a _
      rfl
    rw [hmap]
    exact foldl_min_map_add (t.map Prod.fst) p.1 u

theorem minRowOf_map_add (s : Shape) (u v : Int) (hs : s ≠ []) :
    minRowOf (s.map (fun p => (p.1 + u, p.2 + v))) = minRowOf s + v := by
  rcases s with _ | ⟨p, t⟩
  · exact absurd rfl hs
  · unfold minRowOf
    simp only [List.map_cons, List.map_map]
    have hmap : t.map (Prod.snd ∘ fun p : Int × Int => (p.1 + u, p.2 + v)) =
        (t.map Prod.snd).map (fun x => x + v) := by
      rw [List.map_map]
      apply List.map_congr_left
      intro a _
      rfl
    rw [hmap]
    exact foldl_min_map_add (t.map Prod.snd) p.2 v

/-- `normalize` is translation-invariant. -/
theorem normalize_map_add (s : Shape) (u v : Int) :
    normalize (s.map (fun p => (p.1 + u, p.2 + v))) = normalize s := by
  rcases eq_or_ne s [] with rfl | hs
  · rfl
  · rw [normalize_def, normalize_def,
      minColOf_map_add s u v hs, minRowOf_map_add s u v hs]
    congr 1
    rw [List.map_map]
    apply List.map_congr_left
    intro a _
    simp only [Function.comp, Prod.mk.injEq]
    constructor <;> ring

/-- The 90° rotation as a linear cell map (the `maxRow` translation is
cancelled by `normalize`). -/
def rho (p : Int × Int) : Int × Int := (-p.2, p.1)

/-- The horizontal reflection as a linear cell map. -/
def mu (p : Int × Int) : Int × Int := (-p.1, p.2)

theorem rho_linear (p q : Int × Int) :
    rho (p.1 + q.1, p.2 + q.2) =
      ((rho p).1 + (rho q).1, (rho p).2 + (rho q).2) := by
  unfold rho
  simp only [Prod.mk.injEq]
  constructor <;> ring

theorem mu_linear (p q : Int × Int) :
    mu (p.1 + q.1, p.2 + q.2) =
      ((mu p).1 + (mu q).1, (mu p).2 + (mu q).2) := by
  unfold mu
  simp only [Prod.mk.injEq]
  constructor <;> ring

/-- Pushing a linear cell transformation through `normalize` changes
the input only by a translation, which `normalize` cancels. -/
theorem normalize_map_normalize (f : Int × Int → Int × Int)
    (hf : ∀ p q : Int × Int,
      f (p.1 + q.1, p.2 + q.2) = ((f p).1 + (f q).1, (f p).2 + (f q).2))
    (s : Shape) :
    normalize ((normalize s).map f) = normalize (s.map f) := by
  have h2 : ((normalize s).map f).Perm
      ((s.map (fun p => (p.1 - minColOf s, p.2 - minRowOf s))).map f) :=
    (normalize_perm s).map f
  rw [normalize_congr_perm h2, List.map_map]
  have h3 : (s.map (f ∘ fun p => (p.1 - minColOf s, p.2 - minRowOf s))) =
      (s.map f).map (fun r =>
        (r.1 + (f (-minColOf s, -minRowOf s)).1,
         r.2 + (f (-minColOf s, -minRowOf s)).2)) := by
    rw [List.map_map]
    apply List.map_congr_left
    intro a _
    simp only [Function.comp]
    have hstep := hf a (-minColOf s, -minRowOf s)
    simp only at hstep
    rw [← hstep]
    have harg : (a.1 - minColOf s, a.2 - minRowOf s) =
        (a.1 + -minColOf s, a.2 + -minRowOf s) := by
      simp only [Prod.mk.injEq]
      constructor <;> ring
    rw [harg]
  rw [h3, normalize_map_add]

theorem rotate_eq_normalize_map (s : Shape) :
    rotate90CW s = normalize (s.map rho) := by
  rw [rotate90CW_def]
  have h : (s.map (fun cr => (maxRowOf s - cr.2, cr.1))) =
      (s.map rho).map (fun r => (r.1 + maxRowOf s, r.2 + 0)) := by
    rw [List.map_map]
    apply List.map_congr_left
    intro a _
    simp only [Function.comp, rho, Prod.mk.injEq]
    constructor <;> ring
  rw [h, normalize_map_add]

theorem flip_eq_normalize_map (s : Shape) :
    flipH s = normalize (s.map mu) := by
  rw [flipH_def]
  have h : (s.map (fun cr => (maxColOf s - cr.1, cr.2))) =
      (s.map mu).map (fun r => (r.1 + maxColOf s, r.2 + 0)) := by
    rw [List.map_map]
    apply List.map_congr_left
    intro a _
    simp only [Function.comp, mu, Prod.mk.injEq]
    constructor <;> ring
  rw [h, normalize_map_add]

/-- Composition preserves linearity of cell maps. -/
theorem linear_comp {f g : Int × Int → Int × Int}
    (hf : ∀ p q : Int × Int,
      f (p.1 + q.1, p.2 + q.2) = ((f p).1 + (f q).1, (f p).2 + (f q).2))
    (hg : ∀ p q : Int × Int,
      g (p.1 + q.1, p.2 + q.2) = ((g p).1 + (g q).1, (g p).2 + (g q).2)) :
    ∀ p q : Int × Int,
      (f ∘ g) (p.1 + q.1, p.2 + q.2) =
        (((f ∘ g) p).1 + ((f ∘ g) q).1, ((f ∘ g) p).2 + ((f ∘ g) q).2) := by
  intro p q
  simp only [Function.comp]
  rw [hg p q, hf (g p) (g q)]

theorem rotate_twice (s : Shape) :
    rotate90CW (rotate90CW s) = normalize (s.map (rho ∘ rho)) := by
  rw [rotate_eq_normalize_map s,
    rotate_eq_normalize_map (normalize (s.map rho)),
    normalize_map_normalize rho rho_linear, List.map_map]

/-- C8: rotating any shape four times with `rotate90CW` yields the
normalized original shape, and reflecting twice with `flipH` does too.
In particular both round-trips are the identity on the normalized
shapes stored in the orientation tables. -/
theorem claim_C8 (s : Shape) :
    rotate90CW (rotate90CW (rotate90CW (rotate90CW s))) = normalize s ∧
    flipH (flipH s) = normalize s := by
  constructor
  · rw [rotate_twice s, rotate_twice (normalize (s.map (rho ∘ rho))),
      normalize_map_normalize (rho ∘ rho) (linear_comp rho_linear rho_linear),
      List.map_map]
    have h : (s.map ((rho ∘ rho) ∘ (rho ∘ rho))) = s.map id := by
      apply List.map_congr_left
      intro a _
      obtain ⟨x, y⟩ := a
      simp [rho, Function.comp]
    rw [h, List.map_id]
  · rw [flip_eq_normalize_map s,
      flip_eq_normalize_map (normalize (s.map mu)),
      normalize_map_normalize mu mu_linear, List.map_map]
    have h : (s.map (mu ∘ mu)) = s.map id := by
      apply List.map_congr_left
      intro a _
      obtain ⟨x, y⟩ := a
      simp [mu, Function.comp]
    rw [h, List.map_id]

/-! ## C2: the counter never exceeds its cap -/

theorem placePiece_WF {b : Board} (h : BoardWF b) (pid : String)
    (shape : Shape) (col row : Int) :
    BoardWF (placePiece b pid shape col row) := by
  rw [placePiece_eq_writeCells]
  exact writeCells_WF h _ _ _ _

theorem removePiece_WF {b : Board} (h : BoardWF b) (pid : String)
    (shape : Shape) (col row : Int) :
    BoardWF (removePiece b pid shape col row) := by
  rw [removePiece_eq_writeCells]
  exact writeCells_WF h _ _ _ _

theorem countTry_le_max (fuel : Nat) (maxCount : Nat)
    (IH : ∀ b r count, count ≤ maxCount →
      (countGo fuel b r count maxCount).1 ≤ maxCount) :
    ∀ (cands : List (String × Nat × Shape × (Int × Int))) (b : Board)
      (cur : List String) (count : Nat) (tc tr : Int), count ≤ maxCount →
      (countTry (fun b r k => countGo fuel b r k maxCount) maxCount tc tr
        b cur cands count).1 ≤ maxCount := by
  intro cands
  induction cands with
  | nil => intro b cur count tc tr h; simpa [countTry]
  | cons cand rest ih =>
    intro b cur count tc tr h
    obtain ⟨pid, oi, shape, cell⟩ := cand
    simp only [countTry]
    split
    · split
      · exact ih _ _ _ _ _ h
      · rcases hgo : countGo fuel (placePiece b pid shape (tc - cell.1) (tr - cell.2))
            (cur.erase pid) count maxCount with ⟨count2, b2, cur2⟩
        have hc2 : count2 ≤ maxCount := by
          have := IH (placePiece b pid shape (tc - cell.1) (tr - cell.2))
            (cur.erase pid) count h
          rwa [hgo] at this
        simp only
        split
        · exact hc2
        · exact ih _ _ _ _ _ hc2
    · exact ih _ _ _ _ _ h

theorem countGo_le_max : ∀ (fuel : Nat) (b : Board) (r : List String)
    (count maxCount : Nat), count ≤ maxCount →
    (countGo fuel b r count maxCount).1 ≤ maxCount := by
  intro fuel
  induction fuel with
  | zero => intro b r count maxCount h; simpa [countGo]
  | succ fuel ih =>
    intro b r count maxCount h
    simp only [countGo]
    split
    · exact h
    · split
      · omega
      · exact countTry_le_max fuel maxCount (fun b r c hc => ih b r c maxCount hc)
          _ _ _ _ _ _ h

/-- C2: for every board, every list of available piece ids and every
cap, `countSolutions(board, pieces, maxCount)` returns a value that
never exceeds `maxCount` (the counter short-circuits at the cap at
every recursion depth, so even when more completions exist the result
is clamped). -/
theorem claim_C2 (board : Board) (availablePieceIds : List String)
    (maxCount : Nat) :
    countSolutions board availablePieceIds maxCount ≤ maxCount := by
  unfold countSolutions
  exact countGo_le_max _ _ _ 0 maxCount (Nat.zero_le _)

/-! ## C5: the searches leave the board as they found it -/

theorem cloneBoard_eq (b : Board) : cloneBoard b = b := by
  unfold cloneBoard
  exact List.map_id b

theorem countTry_restores (fuel : Nat) (maxCount : Nat)
    (IH : ∀ b r count, BoardWF b →
      (countGo fuel b r count maxCount).2.1 = b) :
    ∀ (cands : List (String × Nat × Shape × (Int × Int))) (b : Board)
      (cur : List String) (count : Nat) (tc tr : Int), BoardWF b →
      (countTry (fun b r k => countGo fuel b r k maxCount) maxCount tc tr
        b cur cands count).2.1 = b := by
  intro cands
  induction cands with
  | nil => intro b cur count tc tr hWF; simp [countTry]
  | cons cand rest ih =>
    intro b cur count tc tr hWF
    obtain ⟨pid, oi, shape, cell⟩ := cand
    simp only [countTry]
    split
    · rename_i hcan
      split
      · rw [removePiece_placePiece hWF hcan]
        exact ih _ _ _ _ _ hWF
      · rcases hgo : countGo fuel (placePiece b pid shape (tc - cell.1) (tr - cell.2))
            (cur.erase pid) count maxCount with ⟨count2, b2, cur2⟩
        have hb2 : b2 = placePiece b pid shape (tc - cell.1) (tr - cell.2) := by
          have := IH (placePiece b pid shape (tc - cell.1) (tr - cell.2))
            (cur.erase pid) count (placePiece_WF hWF _ _ _ _)
          rwa [hgo] at this
        simp only
        split
        · simp only [hb2, removePiece_placePiece hWF hcan]
        · rw [hb2, removePiece_placePiece hWF hcan]
          exact ih _ _ _ _ _ hWF
    · exact ih _ _ _ _ _ hWF

theorem countGo_restores : ∀ (fuel : Nat) (b : Board) (r : List String)
    (count maxCount : Nat), BoardWF b →
    (countGo fuel b r count maxCount).2.1 = b := by
  intro fuel
  induction fuel with
  | zero => intro b r count maxCount h; simp [countGo]
  | succ fuel ih =>
    intro b r count maxCount hWF
    simp only [countGo]
    split
    · rfl
    · split
      · rfl
      · exact countTry_restores fuel maxCount
          (fun b r c h => ih b r c maxCount h) _ _ _ _ _ _ hWF

theorem solveTry_restores (fuel : Nat)
    (IH : ∀ b r, BoardWF b → (solveGo fuel b r).1 = none →
      (solveGo fuel b r).2.1 = b) :
    ∀ (cands : List (String × Nat × Shape × (Int × Int))) (b : Board)
      (cur : List String) (tc tr : Int), BoardWF b →
      (solveTry (solveGo fuel) tc tr b cur cands).1 = none →
      (solveTry (solveGo fuel) tc tr b cur cands).2.1 = b := by
  intro cands
  induction cands with
  | nil => intro b cur tc tr hWF _; simp [solveTry]
  | cons cand rest ih =>
    intro b cur tc tr hWF hnone
    obtain ⟨pid, oi, shape, cell⟩ := cand
    simp only [solveTry] at hnone ⊢
    by_cases hcan : canPlace b shape (tc - cell.1) (tr - cell.2) = true
    · rw [if_pos hcan] at hnone ⊢
      by_cases hprune : hasDeadIslands
          (placePiece b pid shape (tc - cell.1) (tr - cell.2))
          (minRemainingSize (cur.erase pid)) = true
      · rw [if_pos hprune, removePiece_placePiece hWF hcan] at hnone ⊢
        exact ih _ _ _ _ hWF hnone
      · rw [if_neg hprune] at hnone ⊢
        rcases hgo : solveGo fuel (placePiece b pid shape (tc - cell.1) (tr - cell.2))
            (cur.erase pid) with ⟨res, b2, cur2⟩
        rw [hgo] at hnone
        cases res with
        | some sol => simp at hnone
        | none =>
          have hb2 : b2 = placePiece b pid shape (tc - cell.1) (tr - cell.2) := by
            have := IH (placePiece b pid shape (tc - cell.1) (tr - cell.2))
              (cur.erase pid) (placePiece_WF hWF _ _ _ _) (by rw [hgo])
            rwa [hgo] at this
          simp only at hnone
          rw [hb2, removePiece_placePiece hWF hcan] at hnone
          have hgoal : (solveTry (solveGo fuel) tc tr
              (removePiece b2 pid shape (tc - cell.1) (tr - cell.2))
              (cur2 ++ [pid]) rest).2.1 = b := by
            rw [hb2, removePiece_placePiece hWF hcan]
            exact ih _ _ _ _ hWF hnone
          exact hgoal
    · rw [if_neg hcan] at hnone ⊢
      exact ih _ _ _ _ hWF hnone

theorem solveGo_restores : ∀ (fuel : Nat) (b : Board) (r : List String),
    BoardWF b → (solveGo fuel b r).1 = none →
    (solveGo fuel b r).2.1 = b := by
  intro fuel
  induction fuel with
  | zero => intro b r h _; simp [solveGo]
  | succ fuel ih =>
    intro b r hWF hnone
    simp only [solveGo] at hnone ⊢
    split at hnone
    · simp at hnone
    · exact solveTry_restores fuel ih _ _ _ _ _ hWF hnone

theorem solveOrderedTry_restores (fuel : Nat) (remainingIds : List String)
    (IH : ∀ b r, BoardWF b → (solveOrderedGo fuel b r).1 = none →
      (solveOrderedGo fuel b r).2 = b) :
    ∀ (cands : List (Nat × String × Nat × Shape × (Int × Int))) (b : Board)
      (tc tr : Int), BoardWF b →
      (solveOrderedTry (fun b r => solveOrderedGo fuel b r) remainingIds tc tr
        b cands).1 = none →
      (solveOrderedTry (fun b r => solveOrderedGo fuel b r) remainingIds tc tr
        b cands).2 = b := by
  intro cands
  induction cands with
  | nil => intro b tc tr hWF _; simp [solveOrderedTry]
  | cons cand rest ih =>
    intro b tc tr hWF hnone
    obtain ⟨i, pid, oi, shape, cell⟩ := cand
    simp only [solveOrderedTry] at hnone ⊢
    by_cases hcan : canPlace b shape (tc - cell.1) (tr - cell.2) = true
    · rw [if_pos hcan] at hnone ⊢
      by_cases hprune : hasDeadIslands
          (placePiece b pid shape (tc - cell.1) (tr - cell.2))
          (minRemainingSize (remainingIds.eraseIdx i)) = true
      · rw [if_pos hprune, removePiece_placePiece hWF hcan] at hnone ⊢
        exact ih _ _ _ hWF hnone
      · rw [if_neg hprune] at hnone ⊢
        rcases hgo : solveOrderedGo fuel
            (placePiece b pid shape (tc - cell.1) (tr - cell.2))
            (remainingIds.eraseIdx i) with ⟨res, b2⟩
        rw [hgo] at hnone
        cases res with
        | some sol => simp at hnone
        | none =>
          have hb2 : b2 = placePiece b pid shape (tc - cell.1) (tr - cell.2) := by
            have := IH (placePiece b pid shape (tc - cell.1) (tr - cell.2))
              (remainingIds.eraseIdx i) (placePiece_WF hWF _ _ _ _) (by rw [hgo])
            rwa [hgo] at this
          simp only at hnone
          rw [hb2, removePiece_placePiece hWF hcan] at hnone
          have hgoal : (solveOrderedTry (fun b r => solveOrderedGo fuel b r)
              remainingIds tc tr
              (removePiece b2 pid shape (tc - cell.1) (tr - cell.2)) rest).2 = b := by
            rw [hb2, removePiece_placePiece hWF hcan]
            exact ih _ _ _ hWF hnone
          exact hgoal
    · rw [if_neg hcan] at hnone ⊢
      exact ih _ _ _ hWF hnone

theorem solveOrderedGo_restores : ∀ (fuel : Nat) (b : Board) (r : List String),
    BoardWF b → (solveOrderedGo fuel b r).1 = none →
    (solveOrderedGo fuel b r).2 = b := by
  intro fuel
  induction fuel with
  | zero => intro b r h _; simp [solveOrderedGo]
  | succ fuel ih =>
    intro b r hWF hnone
    simp only [solveOrderedGo] at hnone ⊢
    split at hnone
    · simp at hnone
    · exact solveOrderedTry_restores fuel r ih _ _ _ _ hWF hnone

/-- C5: the caller-supplied board is exactly as it was after any call
to `solve`, `solveWithOrder` or `countSolutions`.  Each entry point
reads the caller's board only through `cloneBoard` — which copies the
cell values unchanged — and every mutation in the search targets the
clone; moreover the search undoes every mutation on its working
board: the counter always returns it as found, and the packers return
it as found whenever they report no solution. -/
theorem claim_C5 (b : Board) (r : List String) (fuel count maxCount : Nat)
    (hWF : BoardWF b) :
    cloneBoard b = b ∧
    (countGo fuel (cloneBoard b) r count maxCount).2.1 = cloneBoard b ∧
    ((solveGo fuel (cloneBoard b) r).1 = none →
      (solveGo fuel (cloneBoard b) r).2.1 = cloneBoard b) ∧
    ((solveOrderedGo fuel (cloneBoard b) r).1 = none →
      (solveOrderedGo fuel (cloneBoard b) r).2 = cloneBoard b) := by
  rw [cloneBoard_eq]
  exact ⟨rfl, countGo_restores fuel b r count maxCount hWF,
    solveGo_restores fuel b r hWF, solveOrderedGo_restores fuel b r hWF⟩

/-- Witness for C5 on the empty board with one remaining piece. -/
theorem claim_C5_witness :
    BoardWF createEmptyBoard ∧
    (cloneBoard createEmptyBoard = createEmptyBoard ∧
      (countGo 2 (cloneBoard createEmptyBoard) ["L"] 0 2).2.1 =
        cloneBoard createEmptyBoard ∧
      ((solveGo 2 (cloneBoard createEmptyBoard) ["L"]).1 = none →
        (solveGo 2 (cloneBoard createEmptyBoard) ["L"]).2.1 =
          cloneBoard createEmptyBoard) ∧
      ((solveOrderedGo 2 (cloneBoard createEmptyBoard) ["L"]).1 = none →
        (solveOrderedGo 2 (cloneBoard createEmptyBoard) ["L"]).2 =
          cloneBoard createEmptyBoard)) :=
  ⟨by decide, claim_C5 createEmptyBoard ["L"] 2 0 2 (by decide)⟩

/-! ## Valid placement sequences -/

/-- Apply a list of placements in order (each a `placePiece`). -/
def applyPlacements (b : Board) (ps : List Placement) : Board :=
  ps.foldl (fun b p => placePiece b p.pieceId p.shape p.col p.row) b

/-- Each placement in turn satisfies `canPlace` on the board built so
far — the order in which the packer lays pieces down. -/
def validSeqB : Board → List Placement → Bool
  | _, [] => true
  | b, p :: ps =>
    canPlace b p.shape p.col p.row &&
      validSeqB (placePiece b p.pieceId p.shape p.col p.row) ps

theorem applyPlacements_nil (b : Board) : applyPlacements b [] = b := rfl

theorem applyPlacements_cons (b : Board) (p : Placement) (ps : List Placement) :
    applyPlacements b (p :: ps) =
      applyPlacements (placePiece b p.pieceId p.shape p.col p.row) ps := rfl

theorem validSeqB_cons {b : Board} {p : Placement} {ps : List Placement} :
    validSeqB b (p :: ps) = true ↔
      canPlace b p.shape p.col p.row = true ∧
      validSeqB (placePiece b p.pieceId p.shape p.col p.row) ps = true := by
  simp [validSeqB]

theorem applyPlacements_WF {b : Board} (h : BoardWF b) (ps : List Placement) :
    BoardWF (applyPlacements b ps) := by
  induction ps generalizing b with
  | nil => exact h
  | cons p ps ih => rw [applyPlacements_cons]; exact ih (placePiece_WF h _ _ _ _)

/-- A cell empty after `placePiece` was empty before. -/
theorem getCell_none_of_place_none {b : Board} {pid : String} {shape : Shape}
    {col row x y : Int}
    (h : getCell (placePiece b pid shape col row) x y = none) :
    getCell b x y = none := by
  rw [placePiece_eq_writeCells] at h
  induction shape generalizing b with
  | nil => exact h
  | cons hd tl ih =>
    rw [writeCells_cons] at h
    have h2 := ih h
    rw [getCell_setCell] at h2
    by_cases hc : x = col + hd.1 ∧ y = row + hd.2 ∧ 0 ≤ row + hd.2 ∧
        0 ≤ col + hd.1 ∧ (row + hd.2).toNat < b.length ∧
        (col + hd.1).toNat < (b.getD (row + hd.2).toNat []).length
    · rw [if_pos hc] at h2; exact absurd h2 (by simp)
    · rwa [if_neg hc] at h2

/-- A placed cell reads back the piece id (on a well-formed board,
for a cell of the translated shape that is in the grid). -/
theorem getCell_place_mem {b : Board} {pid : String} {shape : Shape}
    {col row x y : Int} (hWF : BoardWF b)
    (hmem : (x, y) ∈ shapeCells shape col row) (hgrid : inGrid x y) :
    getCell (placePiece b pid shape col row) x y = some pid := by
  rw [placePiece_eq_writeCells]
  unfold inGrid ROWS COLS at hgrid
  obtain ⟨hlen, hrow⟩ := (BoardWF_iff b).mp hWF
  refine getCell_writeCells_mem shape b (some pid) col row x y hmem
    (by omega) (by omega) (by omega) ?_
  rw [hrow _ (by omega)]
  omega

/-- All cells of every placement of a valid sequence are in grid. -/
theorem validSeq_inGrid {b : Board} {ps : List Placement}
    (hv : validSeqB b ps = true) :
    ∀ p ∈ ps, ∀ q ∈ cellsOf p, inGrid q.1 q.2 := by
  induction ps generalizing b with
  | nil => intro p hp; exact absurd hp (by simp)
  | cons p0 rest ih =>
    obtain ⟨hcan, hrest⟩ := validSeqB_cons.mp hv
    intro p hp q hq
    rcases List.mem_cons.mp hp with rfl | hp
    · obtain ⟨cell, hcell, rfl⟩ := List.mem_map.mp hq
      exact ((canPlace_iff _ _ _ _).mp hcan cell hcell).1
    · exact ih hrest p hp q hq

/-- All cells of every placement of a valid sequence were empty on the
starting board. -/
theorem validSeq_empty_start {b : Board} {ps : List Placement}
    (hv : validSeqB b ps = true) :
    ∀ p ∈ ps, ∀ q ∈ cellsOf p, getCell b q.1 q.2 = none := by
  induction ps generalizing b with
  | nil => intro p hp; exact absurd hp (by simp)
  | cons p0 rest ih =>
    obtain ⟨hcan, hrest⟩ := validSeqB_cons.mp hv
    intro p hp q hq
    rcases List.mem_cons.mp hp with rfl | hp
    · obtain ⟨cell, hcell, rfl⟩ := List.mem_map.mp hq
      exact ((canPlace_iff _ _ _ _).mp hcan cell hcell).2
    · exact getCell_none_of_place_none (ih hrest p hp q hq)

/-- The placements of a valid sequence occupy pairwise disjoint cells
(on a well-formed board). -/
theorem validSeq_pairwise_disjoint {b : Board} {ps : List Placement}
    (hWF : BoardWF b) (hv : validSeqB b ps = true) :
    List.Pairwise (fun p q => ∀ z ∈ cellsOf p, z ∉ cellsOf q) ps := by
  induction ps generalizing b with
  | nil => exact List.Pairwise.nil
  | cons p0 rest ih =>
    obtain ⟨hcan, hrest⟩ := validSeqB_cons.mp hv
    refine List.Pairwise.cons ?_ (ih (placePiece_WF hWF _ _ _ _) hrest)
    intro p hp z hz0 hzp
    have hempty := validSeq_empty_start hrest p hp z hzp
    have hgrid : inGrid z.1 z.2 := validSeq_inGrid hrest p hp z hzp
    have hsome : getCell (placePiece b p0.pieceId p0.shape p0.col p0.row)
        z.1 z.2 = some p0.pieceId := by
      have hz0' : (z.1, z.2) ∈ shapeCells p0.shape p0.col p0.row := by
        simpa using hz0
      exact getCell_place_mem hWF hz0' hgrid
    rw [hempty] at hsome
    exact Option.noConfusion hsome

/-- Cell values after applying a valid sequence: a grid cell is empty
afterwards iff it was empty before and no placement covers it. -/
theorem getCell_applyPlacements {b : Board} {ps : List Placement}
    (hWF : BoardWF b) (hv : validSeqB b ps = true) {x y : Int}
    (hgrid : inGrid x y) :
    (getCell (applyPlacements b ps) x y = none ↔
      getCell b x y = none ∧ ∀ p ∈ ps, (x, y) ∉ cellsOf p) := by
  induction ps generalizing b with
  | nil => simp [applyPlacements_nil]
  | cons p0 rest ih =>
    obtain ⟨hcan, hrest⟩ := validSeqB_cons.mp hv
    rw [applyPlacements_cons,
      ih (placePiece_WF hWF _ _ _ _) hrest]
    constructor
    · rintro ⟨hplaced, hrest'⟩
      refine ⟨getCell_none_of_place_none hplaced, ?_⟩
      intro p hp
      rcases List.mem_cons.mp hp with rfl | hp
      · intro hmem
        have := @getCell_place_mem _ p.pieceId _ _ _ _ _ hWF
          (by simpa [cellsOf] using hmem) hgrid
        rw [this] at hplaced
        exact Option.noConfusion hplaced
      · exact hrest' p hp
    · rintro ⟨hempty, hnot⟩
      refine ⟨?_, fun p hp => hnot p (List.mem_cons_of_mem _ hp)⟩
      rw [placePiece_eq_writeCells,
        getCell_writeCells_notMem _ _ _ _ _ _ _
          (by simpa [cellsOf] using hnot p0 (List.mem_cons_self _ _))]
      exact hempty

/-- `findFirstEmpty` finds nothing iff every grid cell is occupied. -/
theorem findFirstEmpty_eq_none_iff (bd : Board) :
    findFirstEmpty bd = none ↔
      ∀ x y : Int, inGrid x y → getCell bd x y ≠ none := by
  unfold findFirstEmpty
  rw [List.findSome?_eq_none]
  constructor
  · intro h x y hgrid
    unfold inGrid COLS ROWS at hgrid
    have hy : y.toNat ∈ List.range 5 := by
      rw [List.mem_range]; omega
    have hx : x.toNat ∈ List.range 11 := by
      rw [List.mem_range]; omega
    have := h y.toNat hy
    rw [List.findSome?_eq_none] at this
    have := this x.toNat hx
    intro hnone
    have hxx : ((x.toNat : Nat) : Int) = x := by omega
    have hyy : ((y.toNat : Nat) : Int) = y := by omega
    rw [hxx, hyy, hnone] at this
    simp at this
  · intro h r hr
    rw [List.findSome?_eq_none]
    intro c hc
    rw [List.mem_range] at hr hc
    have hgrid : inGrid (c : Int) (r : Int) := by
      unfold inGrid COLS ROWS
      constructor
      · omega
      · refine ⟨by omega, by omega, by omega⟩
    have := h _ _ hgrid
    split
    · rename_i hnone
      exact absurd hnone this
    · rfl

/-! ## Deduplication and piece-ordering lemmas -/

theorem mem_dedupSeen : ∀ (l seen : List String) (a : String),
    a ∈ dedupSeen seen l ↔ a ∈ l ∧ a ∉ seen := by
  intro l
  induction l with
  | nil => intro seen a; simp [dedupSeen]
  | cons x xs ih =>
    intro seen a
    simp only [dedupSeen]
    split
    · rename_i hx
      rw [ih]
      constructor
      · rintro ⟨h1, h2⟩
        exact ⟨List.mem_cons_of_mem _ h1, h2⟩
      · rintro ⟨h1, h2⟩
        rcases List.mem_cons.mp h1 with rfl | h1
        · exact absurd hx h2
        · exact ⟨h1, h2⟩
    · rename_i hx
      simp only [List.mem_cons, ih]
      by_cases hax : a = x
      · subst hax
        simp [hx]
      · tauto

theorem nodup_dedupSeen : ∀ (l seen : List String),
    (dedupSeen seen l).Nodup := by
  intro l
  induction l with
  | nil => intro seen; exact List.nodup_nil
  | cons x xs ih =>
    intro seen
    simp only [dedupSeen]
    split
    · exact ih seen
    · refine List.Nodup.cons ?_ (ih (x :: seen))
      intro hmem
      exact ((mem_dedupSeen xs (x :: seen) x).mp hmem).2 (List.mem_cons_self _ _)

theorem mem_setDedup (ids : List String) (a : String) :
    a ∈ setDedup ids ↔ a ∈ ids := by
  unfold setDedup
  rw [mem_dedupSeen]
  simp

theorem nodup_setDedup (ids : List String) : (setDedup ids).Nodup :=
  nodup_dedupSeen ids []

theorem sortedPieceIds_perm (ids : List String) :
    (sortedPieceIds ids).Perm (setDedup ids) :=
  List.perm_insertionSort _ _

theorem sortedPieceIds_nodup (ids : List String) :
    (sortedPieceIds ids).Nodup :=
  ((sortedPieceIds_perm ids).symm).nodup (nodup_setDedup ids)

theorem mem_sortedPieceIds (ids : List String) (a : String) :
    a ∈ sortedPieceIds ids ↔ a ∈ ids := by
  rw [(sortedPieceIds_perm ids).mem_iff, mem_setDedup]

/-! ## The candidate sequence -/

theorem candidates_mem {snap : List String} {pid : String} {oi : Nat}
    {shape : Shape} {cell : Int × Int}
    (h : (pid, oi, shape, cell) ∈ candidates snap) :
    pid ∈ snap ∧ (ORIENTATIONS pid)[oi]? = some shape ∧ cell ∈ shape := by
  unfold candidates at h
  rw [List.mem_flatMap] at h
  obtain ⟨pid', hpid', h2⟩ := h
  rw [List.mem_flatMap] at h2
  obtain ⟨⟨oi', shape'⟩, henum, h3⟩ := h2
  rw [List.mem_map] at h3
  obtain ⟨cell', hcell', heq⟩ := h3
  obtain ⟨h4, h5, h6, h7⟩ : pid' = pid ∧ oi' = oi ∧ shape' = shape ∧ cell' = cell := by
    simpa [Prod.ext_iff] using heq
  subst h4; subst h5; subst h6; subst h7
  obtain ⟨hlt, hsh⟩ := List.mem_enum henum
  refine ⟨hpid', ?_, hcell'⟩
  rw [List.getElem?_eq_getElem hlt, hsh]

/-! ## The packer preserves the remaining set on failure -/

theorem solveTry_none_perm (fuel : Nat)
    (IHperm : ∀ b r, (solveGo fuel b r).1 = none →
      (solveGo fuel b r).2.2.Perm r) :
    ∀ (cands : List (String × Nat × Shape × (Int × Int))) (b : Board)
      (cur : List String) (tc tr : Int),
      (∀ cand ∈ cands, cand.1 ∈ cur) →
      (solveTry (solveGo fuel) tc tr b cur cands).1 = none →
      (solveTry (solveGo fuel) tc tr b cur cands).2.2.Perm cur := by
  intro cands
  induction cands with
  | nil => intro b cur tc tr _ _; simp [solveTry]
  | cons cand rest ih =>
    intro b cur tc tr hmem hnone
    obtain ⟨pid, oi, shape, cell⟩ := cand
    have hpid : pid ∈ cur := hmem _ (List.mem_cons_self _ _)
    have hcur' : ∀ (cur' : List String), cur'.Perm cur →
        (∀ cand ∈ rest, cand.1 ∈ cur') := by
      intro cur' hp cand hc
      exact hp.mem_iff.mpr (hmem _ (List.mem_cons_of_mem _ hc))
    have herase : ((cur.erase pid) ++ [pid]).Perm cur :=
      (List.perm_append_singleton _ _).trans (List.perm_cons_erase hpid).symm
    simp only [solveTry] at hnone ⊢
    by_cases hcan : canPlace b shape (tc - cell.1) (tr - cell.2) = true
    · rw [if_pos hcan] at hnone ⊢
      by_cases hprune : hasDeadIslands
          (placePiece b pid shape (tc - cell.1) (tr - cell.2))
          (minRemainingSize (cur.erase pid)) = true
      · rw [if_pos hprune] at hnone ⊢
        exact (ih _ _ _ _ (hcur' _ herase) hnone).trans herase
      · rw [if_neg hprune] at hnone ⊢
        rcases hgo : solveGo fuel (placePiece b pid shape (tc - cell.1) (tr - cell.2))
            (cur.erase pid) with ⟨res, b2, cur2⟩
        rw [hgo] at hnone
        cases res with
        | some sol => simp at hnone
        | none =>
          have hcur2 : cur2.Perm (cur.erase pid) := by
            have := IHperm (placePiece b pid shape (tc - cell.1) (tr - cell.2))
              (cur.erase pid) (by rw [hgo])
            rwa [hgo] at this
          have happ : (cur2 ++ [pid]).Perm cur :=
            ((hcur2.append (List.Perm.refl [pid])).trans herase)
          simp only at hnone
          exact (ih _ _ _ _ (hcur' _ happ) hnone).trans happ
    · rw [if_neg hcan] at hnone ⊢
      exact ih _ _ _ _ (hcur' _ (List.Perm.refl cur)) hnone

theorem solveGo_none_perm : ∀ (fuel : Nat) (b : Board) (r : List String),
    (solveGo fuel b r).1 = none → (solveGo fuel b r).2.2.Perm r := by
  intro fuel
  induction fuel with
  | zero => intro b r _; simp [solveGo]
  | succ fuel ih =>
    intro b r hnone
    simp only [solveGo] at hnone ⊢
    split at hnone
    · simp at hnone
    · refine solveTry_none_perm fuel ih _ _ _ _ _ ?_ hnone
      intro cand hc
      obtain ⟨pid, oi, shape, cell⟩ := cand
      exact (candidates_mem hc).1

/-! ## Soundness of the packer -/

/-- What a successful search from `(b, r)` guarantees about its
output `(some sol, b2, r2)`. -/
def SolveSound (b : Board) (r : List String) (sol : List Placement)
    (b2 : Board) (r2 : List String) : Prop :=
  validSeqB b sol = true ∧
  findFirstEmpty (applyPlacements b sol) = none ∧
  b2 = applyPlacements b sol ∧
  ((sol.map Placement.pieceId) ++ r2).Perm r ∧
  (∀ p ∈ sol, (ORIENTATIONS p.pieceId)[p.orientationIndex]? = some p.shape)

theorem solveTry_sound (fuel : Nat)
    (IHsound : ∀ b r sol b2 r2, BoardWF b →
      solveGo fuel b r = (some sol, b2, r2) → SolveSound b r sol b2 r2)
    (IHperm : ∀ b r, (solveGo fuel b r).1 = none →
      (solveGo fuel b r).2.2.Perm r)
    (IHrestore : ∀ b r, BoardWF b → (solveGo fuel b r).1 = none →
      (solveGo fuel b r).2.1 = b) :
    ∀ (cands : List (String × Nat × Shape × (Int × Int))) (b : Board)
      (cur : List String) (tc tr : Int) (sol : List Placement) (b2 : Board)
      (cur2 : List String), BoardWF b →
      (∀ cand ∈ cands, cand.1 ∈ cur ∧
        (ORIENTATIONS cand.1)[cand.2.1]? = some cand.2.2.1) →
      solveTry (solveGo fuel) tc tr b cur cands = (some sol, b2, cur2) →
      SolveSound b cur sol b2 cur2 := by
  intro cands
  induction cands with
  | nil => intro b cur tc tr sol b2 cur2 _ _ h; simp [solveTry] at h
  | cons cand rest ih =>
    intro b cur tc tr sol b2 cur2 hWF hmem heq
    obtain ⟨pid, oi, shape, cell⟩ := cand
    have hpid : pid ∈ cur := (hmem _ (List.mem_cons_self _ _)).1
    have htab : (ORIENTATIONS pid)[oi]? = some shape :=
      (hmem _ (List.mem_cons_self _ _)).2
    have herase : ((cur.erase pid) ++ [pid]).Perm cur :=
      (List.perm_append_singleton _ _).trans (List.perm_cons_erase hpid).symm
    have hmem' : ∀ (cur' : List String), cur'.Perm cur →
        ∀ cand ∈ rest, cand.1 ∈ cur' ∧
          (ORIENTATIONS cand.1)[cand.2.1]? = some cand.2.2.1 := by
      intro cur' hp cand hc
      exact ⟨hp.mem_iff.mpr (hmem _ (List.mem_cons_of_mem _ hc)).1,
        (hmem _ (List.mem_cons_of_mem _ hc)).2⟩
    have htrans : ∀ (cur' : List String), cur'.Perm cur →
        SolveSound b cur' sol b2 cur2 → SolveSound b cur sol b2 cur2 := by
      rintro cur' hp ⟨h1, h2, h3, h4, h5⟩
      exact ⟨h1, h2, h3, h4.trans hp, h5⟩
    simp only [solveTry] at heq
    by_cases hcan : canPlace b shape (tc - cell.1) (tr - cell.2) = true
    · rw [if_pos hcan] at heq
      by_cases hprune : hasDeadIslands
          (placePiece b pid shape (tc - cell.1) (tr - cell.2))
          (minRemainingSize (cur.erase pid)) = true
      · rw [if_pos hprune, removePiece_placePiece hWF hcan] at heq
        exact htrans _ herase (ih _ _ _ _ _ _ _ hWF (hmem' _ herase) heq)
      · rw [if_neg hprune] at heq
        rcases hgo : solveGo fuel (placePiece b pid shape (tc - cell.1) (tr - cell.2))
            (cur.erase pid) with ⟨res, bb, rr⟩
        rw [hgo] at heq
        cases res with
        | some sol' =>
          simp only at heq
          obtain ⟨hsol, hb2, hcur2⟩ :
              (⟨pid, shape, tc - cell.1, tr - cell.2, oi⟩ : Placement) :: sol' = sol ∧
              bb = b2 ∧ rr = cur2 := by
            refine ⟨congrArg (Prod.fst) heq |> Option.some.inj, ?_, ?_⟩
            · exact congrArg (fun t => t.2.1) heq
            · exact congrArg (fun t => t.2.2) heq
          obtain ⟨hv, hfull, hb, hperm, htable⟩ := IHsound _ _ _ _ _
            (placePiece_WF hWF _ _ _ _) hgo
          subst hsol; subst hb2; subst hcur2
          refine ⟨?_, ?_, ?_, ?_, ?_⟩
          · rw [validSeqB_cons]
            exact ⟨hcan, hv⟩
          · rw [applyPlacements_cons]
            exact hfull
          · rw [applyPlacements_cons]
            exact hb
          · simp only [List.map_cons, List.cons_append]
            refine (List.Perm.cons pid hperm).trans ?_
            exact (List.perm_cons_erase hpid).symm
          · intro p hp
            rcases List.mem_cons.mp hp with rfl | hp
            · exact htab
            · exact htable p hp
        | none =>
          have hbb : bb = placePiece b pid shape (tc - cell.1) (tr - cell.2) := by
            have := IHrestore (placePiece b pid shape (tc - cell.1) (tr - cell.2))
              (cur.erase pid) (placePiece_WF hWF _ _ _ _) (by rw [hgo])
            rwa [hgo] at this
          have hrr : rr.Perm (cur.erase pid) := by
            have := IHperm (placePiece b pid shape (tc - cell.1) (tr - cell.2))
              (cur.erase pid) (by rw [hgo])
            rwa [hgo] at this
          have happ : (rr ++ [pid]).Perm cur :=
            (hrr.append (List.Perm.refl [pid])).trans herase
          simp only at heq
          rw [hbb, removePiece_placePiece hWF hcan] at heq
          exact htrans _ happ (ih _ _ _ _ _ _ _ hWF (hmem' _ happ) heq)
    · rw [if_neg hcan] at heq
      exact ih _ _ _ _ _ _ _ hWF (hmem' _ (List.Perm.refl cur)) heq

theorem solveGo_sound : ∀ (fuel : Nat) (b : Board) (r : List String)
    (sol : List Placement) (b2 : Board) (r2 : List String), BoardWF b →
    solveGo fuel b r = (some sol, b2, r2) → SolveSound b r sol b2 r2 := by
  intro fuel
  induction fuel with
  | zero => intro b r sol b2 r2 _ h; simp [solveGo] at h
  | succ fuel ih =>
    intro b r sol b2 r2 hWF heq
    simp only [solveGo] at heq
    split at heq
    · rename_i hempty
      obtain ⟨h1, h2, h3⟩ : ([] : List Placement) = sol ∧ b = b2 ∧ r = r2 := by
        refine ⟨congrArg Prod.fst heq |> Option.some.inj, ?_, ?_⟩
        · exact congrArg (fun t => t.2.1) heq
        · exact congrArg (fun t => t.2.2) heq
      subst h1; subst h2; subst h3
      exact ⟨rfl, hempty, rfl, List.Perm.refl r, by simp⟩
    · refine solveTry_sound fuel ih (solveGo_none_perm fuel)
        (fun b r h1 h2 => solveGo_restores fuel b r h1 h2) _ _ _ _ _ _ _ _
        hWF ?_ heq
      intro cand hc
      obtain ⟨pid, oi, shape, cell⟩ := cand
      exact ⟨(candidates_mem hc).1, (candidates_mem hc).2.1⟩

theorem solve_def (board : Board) (ids : List String) :
    solve board ids =
      (solveGo ((sortedPieceIds ids).length + 1) (cloneBoard board)
        (sortedPieceIds ids)).1 := rfl

/-- C9: whenever `solve` returns a placement list, every placement
lies within grid bounds, the placements occupy pairwise disjoint
cells, each uses a distinct piece id drawn from the available list
with one of that piece's precomputed orientations, and together the
placements cover exactly the cells that were empty in the input
board. -/
theorem claim_C9 (b : Board) (ids : List String) (sol : List Placement)
    (hWF : BoardWF b) (hsol : solve b ids = some sol) :
    (∀ p ∈ sol, ∀ q ∈ cellsOf p, inGrid q.1 q.2) ∧
    List.Pairwise (fun p q => ∀ z ∈ cellsOf p, z ∉ cellsOf q) sol ∧
    (sol.map Placement.pieceId).Nodup ∧
    (∀ p ∈ sol, p.pieceId ∈ ids) ∧
    (∀ p ∈ sol, (ORIENTATIONS p.pieceId)[p.orientationIndex]? = some p.shape) ∧
    (∀ x y : Int, inGrid x y →
      (getCell b x y = none ↔ ∃ p ∈ sol, (x, y) ∈ cellsOf p)) := by
  rw [solve_def, cloneBoard_eq] at hsol
  rcases hgo : solveGo ((sortedPieceIds ids).length + 1) b (sortedPieceIds ids)
    with ⟨res, bb, rr⟩
  rw [hgo] at hsol
  simp only at hsol
  subst hsol
  obtain ⟨hv, hfull, hb, hperm, htab⟩ :=
    solveGo_sound _ _ _ _ _ _ hWF hgo
  have hnodup : ((sol.map Placement.pieceId) ++ rr).Nodup :=
    hperm.symm.nodup (sortedPieceIds_nodup ids)
  refine ⟨validSeq_inGrid hv, validSeq_pairwise_disjoint hWF hv,
    (List.nodup_append.mp hnodup).1, ?_, htab, ?_⟩
  · intro p hp
    have h1 : p.pieceId ∈ (sol.map Placement.pieceId) ++ rr :=
      List.mem_append_left _ (List.mem_map_of_mem _ hp)
    exact (mem_sortedPieceIds ids _).mp (hperm.mem_iff.mp h1)
  · intro x y hgrid
    constructor
    · intro hempty
      by_contra hno
      push_neg at hno
      have hocc : getCell (applyPlacements b sol) x y = none :=
        (getCell_applyPlacements hWF hv hgrid).mpr ⟨hempty, hno⟩
      exact ((findFirstEmpty_eq_none_iff _).mp hfull x y hgrid) hocc
    · rintro ⟨p, hp, hmem⟩
      exact validSeq_empty_start hv p hp (x, y) hmem

/-- The reference packing of the full 5×11 board used as a concrete
certificate: twelve legal placements, one per piece, with shapes drawn
from the orientation tables, covering all 55 cells. -/
def refSolution : List Placement :=
  [⟨"B", [(0, 0), (1, 0), (1, 1), (2, 1), (2, 2)], 0, 0, 0⟩,
   ⟨"D", [(0, 0), (1, 0), (2, 0), (3, 0), (3, 1)], 2, 0, 0⟩,
   ⟨"E", [(0, 0), (1, 0), (1, 1), (2, 1), (3, 1)], 6, 0, 0⟩,
   ⟨"A", [(0, 0), (1, 0), (2, 0), (2, 1)], 8, 0, 0⟩,
   ⟨"F", [(0, 0), (0, 1), (1, 1), (0, 2), (0, 3)], 0, 1, 7⟩,
   ⟨"K", [(0, 0), (1, 0), (0, 1), (1, 1)], 3, 1, 0⟩,
   ⟨"J", [(0, 0), (0, 1), (1, 1), (1, 2), (2, 2)], 6, 1, 0⟩,
   ⟨"G", [(3, 0), (0, 1), (1, 1), (2, 1), (3, 1)], 2, 2, 4⟩,
   ⟨"I", [(0, 0), (1, 0), (1, 1), (0, 2), (1, 2)], 8, 2, 1⟩,
   ⟨"L", [(0, 0), (0, 1), (0, 2)], 10, 2, 1⟩,
   ⟨"H", [(0, 0), (0, 1), (1, 1), (2, 1), (3, 1)], 1, 3, 6⟩,
   ⟨"C", [(1, 0), (0, 1), (1, 1), (2, 1)], 5, 3, 2⟩]

/-- A board with the first eleven reference pieces placed (only C
missing). -/
def elevenBoard : Board :=
  applyPlacements createEmptyBoard (refSolution.take 11)

/-- Witness for C9: on the eleven-piece board with only piece C
available, `solve` returns the single C placement and all C9
guarantees hold for it. -/
theorem claim_C9_witness :
    (BoardWF elevenBoard ∧
      solve elevenBoard ["C"] =
        some [⟨"C", [(1, 0), (0, 1), (1, 1), (2, 1)], 5, 3, 2⟩]) ∧
    ((∀ p ∈ [(⟨"C", [(1, 0), (0, 1), (1, 1), (2, 1)], 5, 3, 2⟩ : Placement)],
        ∀ q ∈ cellsOf p, inGrid q.1 q.2) ∧
     List.Pairwise (fun p q => ∀ z ∈ cellsOf p, z ∉ cellsOf q)
       [(⟨"C", [(1, 0), (0, 1), (1, 1), (2, 1)], 5, 3, 2⟩ : Placement)] ∧
     (([(⟨"C", [(1, 0), (0, 1), (1, 1), (2, 1)], 5, 3, 2⟩ : Placement)]).map
        Placement.pieceId).Nodup ∧
     (∀ p ∈ [(⟨"C", [(1, 0), (0, 1), (1, 1), (2, 1)], 5, 3, 2⟩ : Placement)],
        p.pieceId ∈ ["C"]) ∧
     (∀ p ∈ [(⟨"C", [(1, 0), (0, 1), (1, 1), (2, 1)], 5, 3, 2⟩ : Placement)],
        (ORIENTATIONS p.pieceId)[p.orientationIndex]? = some p.shape) ∧
     (∀ x y : Int, inGrid x y →
        (getCell elevenBoard x y = none ↔
          ∃ p ∈ [(⟨"C", [(1, 0), (0, 1), (1, 1), (2, 1)], 5, 3, 2⟩ : Placement)],
            (x, y) ∈ cellsOf p))) :=
  ⟨⟨by decide, by decide⟩,
    claim_C9 elevenBoard ["C"]
      [(⟨"C", [(1, 0), (0, 1), (1, 1), (2, 1)], 5, 3, 2⟩ : Placement)]
      (by decide) (by decide)⟩

/-! ## The challenge builder (`challenges.js`) and generator
(`generateChallenge` in `solver.js`) -/

/-- One step of `seededRandom`: `s = (s * 1664525 + 1013904223) &
0xFFFFFFFF`.  (The JS signed `& 0xFFFFFFFF` differs from the unsigned
residue by a multiple of 2³², which the next multiplication and mask
cancel, so the unsigned residue sequence is exact.) -/
def lcgNext (s : Nat) : Nat :=
  (s * 1664525 + 1013904223) % 4294967296

/-- Swap two positions of a list (`[a[i], a[j]] = [a[j], a[i]]`). -/
def swapList {α : Type} (l : List α) (i j : Nat) : List α :=
  match l[i]?, l[j]? with
  | some x, some y => (l.set i y).set j x
  | _, _ => l

/-- The Fisher–Yates loop of `shuffleWithRng`, from JS index `i` down
to `1`, threading the generator state.  `j = Math.floor(rng() * (i +
1))` is modelled exactly in rationals as `(s' * (i + 1)) / (2³² − 1)`
(integer division); for every generator state arising from the seeds
used in this development the double-precision JS computation yields
the same index. -/
def shuffleGo {α : Type} : Nat → Nat → List α → List α × Nat
  | 0, s, arr => (arr, s)
  | i + 1, s, arr =>
    let s' := lcgNext s
    let j := (s' * (i + 2)) / 4294967295
    shuffleGo i s' (swapList arr (i + 1) j)

/-- `shuffleWithSeed(arr, seed)` = `shuffleWithRng(arr,
seededRandom(seed))`. -/
def shuffleWithSeed {α : Type} (arr : List α) (seed : Nat) : List α :=
  (shuffleGo (arr.length - 1) seed arr).1

/-- A pre-placed piece as stored in a challenge descriptor
(`{ pieceId, col, row, orientationIndex }`). -/
structure ChallengePlacement where
  pieceId : String
  col : Int
  row : Int
  orientationIndex : Nat
deriving DecidableEq

/-- A challenge descriptor as emitted by
`buildChallengesFromSolutions`. -/
structure Challenge where
  id : Nat
  difficulty : Nat
  name : String
  prePlaced : List ChallengePlacement
  playerPieceIds : List String
  solution : List ChallengePlacement
deriving DecidableEq

/-- `DIFFICULTY_CONFIG[d].playerPieces` from `challenges.js`. -/
def DIFFICULTY_PLAYER_PIECES : Nat → Nat
  | 1 => 2 | 2 => 4 | 3 => 6 | 4 => 8 | 5 => 10 | _ => 0

/-- `DIFFICULTY_CONFIG[d].name` from `challenges.js`. -/
def DIFFICULTY_NAME : Nat → String
  | 1 => "Starter" | 2 => "Junior" | 3 => "Expert" | 4 => "Master"
  | 5 => "Wizard" | _ => ""

/-- Drop the shape from a solver placement, keeping
`{ pieceId, col, row, orientationIndex }`. -/
def toChallengePlacement (p : Placement) : ChallengePlacement :=
  ⟨p.pieceId, p.col, p.row, p.orientationIndex⟩

/-- `buildChallengesFromSolutions(solutions)` from `challenges.js`:
for each of the 5 difficulties, 10 challenges; each picks a solution
round-robin, shuffles it with the seeded generator
(`selectionSeed = difficulty * 100003 + i * 7919 + solutionIdx *
54321`), locks the first `12 − playerPieces` placements and leaves the
rest to the player.  No uniqueness check is performed. -/
def buildChallengesFromSolutions (solutions : List (List Placement)) :
    List Challenge :=
  (List.range 5).flatMap fun d0 =>
    (List.range 10).map fun i =>
      let difficulty := d0 + 1
      let preCount := 12 - DIFFICULTY_PLAYER_PIECES difficulty
      let solutionIdx := i % solutions.length
      let solution := solutions.getD solutionIdx []
      let selectionSeed := difficulty * 100003 + i * 7919 + solutionIdx * 54321
      let shuffled := shuffleWithSeed solution selectionSeed
      { id := d0 * 10 + i + 1
        difficulty := difficulty
        name := DIFFICULTY_NAME difficulty
        prePlaced := (shuffled.take preCount).map toChallengePlacement
        playerPieceIds := (shuffled.drop preCount).map Placement.pieceId
        solution := solution.map toChallengePlacement }

/-- An exact completion of a board by the given pieces: the placements
use exactly the listed piece ids (as a multiset), each with one of its
precomputed orientations, laid down legally in sequence, and the board
is full afterwards. -/
def isCompletionOf (board : Board) (pieceIds : List String)
    (ps : List Placement) : Bool :=
  (ps.map Placement.pieceId).isPerm pieceIds &&
  ps.all (fun p => (ORIENTATIONS p.pieceId)[p.orientationIndex]? == some p.shape) &&
  validSeqB board ps &&
  (findFirstEmpty (applyPlacements board ps) == none)

/-- The result of `generateChallenge` in `solver.js`. -/
structure GeneratedChallenge where
  prePlaced : List ChallengePlacement
  solution : List Placement
deriving DecidableEq

/-- The test board of one `generateChallenge` attempt: the first
`preCount` placements of the shuffled solution, placed on an empty
board. -/
def genTestBoard (preCount : Nat) (shuffled : List Placement) : Board :=
  applyPlacements createEmptyBoard (shuffled.take preCount)

/-- The remaining piece ids of one `generateChallenge` attempt. -/
def genRemainingIds (preCount : Nat) (shuffled : List Placement) :
    List String :=
  (shuffled.drop preCount).map Placement.pieceId

/-- The attempt loop of `generateChallenge`: accept the first shuffle
whose locked subset leaves a subproblem with
`countSolutions(testBoard, remainingIds, 2) === 1`; otherwise retry.
The `[...solution].sort(() => Math.random() - 0.5)` shuffles are
supplied by the caller as an oracle list (`Math.random` makes them
implementation-defined permutations). -/
def genAttempts (preCount : Nat) (solution : List Placement) :
    List (List Placement) → Option GeneratedChallenge
  | [] => none
  | shuffled :: rest =>
    if countSolutions (genTestBoard preCount shuffled)
        (genRemainingIds preCount shuffled) 2 = 1 then
      some ⟨(shuffled.take preCount).map toChallengePlacement, solution⟩
    else genAttempts preCount solution rest

/-- `generateChallenge(difficulty)` from `solver.js`, with the
`Math.random` shuffles passed as an oracle: solve the empty board,
then run up to 100 acceptance attempts. -/
def generateChallenge (difficulty : Nat)
    (shuffles : List (List Placement)) : Option GeneratedChallenge :=
  let preCount := max 5 (10 - difficulty)
  match solve createEmptyBoard (PIECES.map Piece.id) with
  | none => none
  | some solution => genAttempts preCount solution (shuffles.take 100)

/-- The board of challenge #41's locked placements (pieces H and C at
the positions and orientations the descriptor records). -/
def ch41Board : Board :=
  applyPlacements createEmptyBoard
    [⟨"H", [(0, 0), (0, 1), (1, 1), (2, 1), (3, 1)], 1, 3, 6⟩,
     ⟨"C", [(1, 0), (0, 1), (1, 1), (2, 1)], 5, 3, 2⟩]

/-- The player pieces of challenge #41. -/
def ch41PlayerIds : List String :=
  ["I", "L", "G", "J", "D", "F", "A", "E", "K", "B"]

/-- First completion of challenge #41's subproblem. -/
def ch41Completion1 : List Placement :=
  [⟨"I", [(0, 0), (1, 0), (2, 0), (0, 1), (2, 1)], 0, 0, 0⟩,
   ⟨"L", [(0, 0), (0, 1), (0, 2)], 3, 0, 1⟩,
   ⟨"A", [(0, 0), (1, 0), (2, 0), (2, 1)], 4, 0, 0⟩,
   ⟨"F", [(0, 0), (1, 0), (2, 0), (3, 0), (2, 1)], 7, 0, 4⟩,
   ⟨"E", [(1, 0), (0, 1), (1, 1), (0, 2), (0, 3)], 0, 1, 1⟩,
   ⟨"K", [(0, 0), (1, 0), (0, 1), (1, 1)], 4, 1, 0⟩,
   ⟨"J", [(0, 0), (1, 0), (1, 1), (2, 1), (2, 2)], 7, 1, 2⟩,
   ⟨"G", [(1, 0), (1, 1), (1, 2), (0, 3), (1, 3)], 9, 1, 3⟩,
   ⟨"D", [(0, 0), (0, 1), (1, 1), (2, 1), (3, 1)], 2, 2, 2⟩,
   ⟨"B", [(0, 0), (1, 0), (1, 1), (2, 1), (2, 2)], 6, 2, 0⟩]

/-- Second, different completion of challenge #41's subproblem. -/
def ch41Completion2 : List Placement :=
  [⟨"I", [(0, 0), (1, 0), (2, 0), (0, 1), (2, 1)], 0, 0, 0⟩,
   ⟨"L", [(0, 0), (0, 1), (0, 2)], 3, 0, 1⟩,
   ⟨"A", [(0, 0), (1, 0), (2, 0), (2, 1)], 4, 0, 0⟩,
   ⟨"F", [(0, 0), (1, 0), (2, 0), (3, 0), (2, 1)], 7, 0, 4⟩,
   ⟨"E", [(1, 0), (0, 1), (1, 1), (0, 2), (0, 3)], 0, 1, 1⟩,
   ⟨"K", [(0, 0), (1, 0), (0, 1), (1, 1)], 4, 1, 0⟩,
   ⟨"J", [(0, 0), (1, 0), (1, 1), (2, 1), (2, 2)], 7, 1, 2⟩,
   ⟨"D", [(1, 0), (1, 1), (1, 2), (0, 3), (1, 3)], 9, 1, 1⟩,
   ⟨"G", [(0, 0), (0, 1), (1, 1), (2, 1), (3, 1)], 2, 2, 0⟩,
   ⟨"B", [(0, 0), (1, 0), (1, 1), (2, 1), (2, 2)], 6, 2, 0⟩]

/-- C3 fails as stated: `buildChallengesFromSolutions` performs no
uniqueness check, and for the legitimate input `[refSolution]` the
first Wizard-tier descriptor it emits (challenge #41, locking only
pieces H and C) has at least two distinct exact completions by the
player pieces. -/
theorem claim_C3_counterexample :
    ((buildChallengesFromSolutions [refSolution])[40]?).map
        Challenge.prePlaced =
      some [⟨"H", 1, 3, 6⟩, ⟨"C", 5, 3, 2⟩] ∧
    ((buildChallengesFromSolutions [refSolution])[40]?).map
        Challenge.playerPieceIds = some ch41PlayerIds ∧
    (ORIENTATIONS "H")[6]? = some [(0, 0), (0, 1), (1, 1), (2, 1), (3, 1)] ∧
    (ORIENTATIONS "C")[2]? = some [(1, 0), (0, 1), (1, 1), (2, 1)] ∧
    isCompletionOf ch41Board ch41PlayerIds ch41Completion1 = true ∧
    isCompletionOf ch41Board ch41PlayerIds ch41Completion2 = true ∧
    ch41Completion1 ≠ ch41Completion2 :=
  ⟨by decide, by decide, by decide, by decide, by decide, by decide, by decide⟩

/-- C3 (amended): `generateChallenge`'s attempt loop accepts a locked
subset only when the capped counter returns exactly 1, so every
challenge it returns comes from a shuffle whose subproblem has
`countSolutions(testBoard, remainingIds, 2) = 1`; it returns `none`
when no attempt within the budget is accepted.
`buildChallengesFromSolutions` in `challenges.js`, by contrast, emits
its 50 descriptors without any uniqueness check, and can emit
descriptors whose subproblem has more than one completion
(`claim_C3_counterexample`). -/
theorem claim_C3 (preCount : Nat) (solution : List Placement)
    (shuffles : List (List Placement)) (g : GeneratedChallenge)
    (h : genAttempts preCount solution shuffles = some g) :
    ∃ shuffled ∈ shuffles,
      countSolutions (genTestBoard preCount shuffled)
        (genRemainingIds preCount shuffled) 2 = 1 ∧
      g.prePlaced = (shuffled.take preCount).map toChallengePlacement ∧
      g.solution = solution := by
  induction shuffles with
  | nil => simp [genAttempts] at h
  | cons shuffled rest ih =>
    simp only [genAttempts] at h
    split at h
    · rename_i hcount
      refine ⟨shuffled, List.mem_cons_self _ _, hcount, ?_, ?_⟩
      · rw [← Option.some.inj h]
      · rw [← Option.some.inj h]
    · obtain ⟨sh, hmem, hc⟩ := ih h
      exact ⟨sh, List.mem_cons_of_mem _ hmem, hc⟩

/-- Witness for C3 (amended): locking the first nine placements of the
reference solution leaves a three-piece subproblem with exactly one
completion, so `genAttempts` accepts it immediately. -/
theorem claim_C3_witness :
    genAttempts 9 refSolution [refSolution] =
      some ⟨(refSolution.take 9).map toChallengePlacement, refSolution⟩ ∧
    (∃ shuffled ∈ [refSolution],
      countSolutions (genTestBoard 9 shuffled) (genRemainingIds 9 shuffled) 2 = 1 ∧
      ((⟨(refSolution.take 9).map toChallengePlacement,
          refSolution⟩ : GeneratedChallenge)).prePlaced =
        (shuffled.take 9).map toChallengePlacement ∧
      ((⟨(refSolution.take 9).map toChallengePlacement,
          refSolution⟩ : GeneratedChallenge)).solution = refSolution) :=
  ⟨by decide,
    claim_C3 9 refSolution [refSolution]
      ⟨(refSolution.take 9).map toChallengePlacement, refSolution⟩ (by decide)⟩

/-! ## C6: island pruning — visited-grid lemmas -/

/-- Nat-indexed visited-grid read. -/
def visNatGet (v : Visited) (j i : Nat) : Bool :=
  (v.getD i []).getD j false

theorem visNatGet_def (v : Visited) (j i : Nat) :
    visNatGet v j i = ((v[i]?.getD [])[j]?).getD false := by
  unfold visNatGet
  rw [List.getD_eq_getElem?_getD, List.getD_eq_getElem?_getD]

theorem visGet_eq_visNatGet {c r : Int} (v : Visited) (hc : 0 ≤ c) (hr : 0 ≤ r) :
    visGet v c r = visNatGet v c.toNat r.toNat := by
  simp [visGet, visNatGet, hr, hc]

theorem visRowGet_set (row : List Bool) (j j' : Nat) (b : Bool) :
    ((row.set j b).getD j' false) =
      if j = j' ∧ j < row.length then b else row.getD j' false := by
  rw [List.getD_eq_getElem?_getD, List.getD_eq_getElem?_getD, List.getElem?_set]
  rcases eq_or_ne j j' with rfl | hjj
  · rcases Nat.lt_or_ge j row.length with h | h
    · simp [h]
    · simp [Nat.not_lt.mpr h, List.getElem?_eq_none h]
  · simp [hjj]

theorem visNatGet_setRow (v : Visited) (row' : List Bool) (i j' i' : Nat) :
    visNatGet (v.set i row') j' i' =
      if i = i' ∧ i < v.length then row'.getD j' false else visNatGet v j' i' := by
  unfold visNatGet
  rcases eq_or_ne i i' with rfl | hii
  · rcases Nat.lt_or_ge i v.length with h | h
    · rw [List.getD_eq_getElem?_getD (v.set i row') i,
        List.getElem?_set_self (by simpa using h), Option.getD_some]
      simp [h]
    · rw [List.set_eq_of_length_le (by simpa using h)]
      simp [Nat.not_lt.mpr h]
  · rw [List.getD_eq_getElem?_getD (v.set i row') i',
      List.getElem?_set_ne hii, ← List.getD_eq_getElem?_getD]
    simp [hii]

theorem visNatGet_set (v : Visited) (j i j' i' : Nat) :
    visNatGet (v.set i ((v.getD i []).set j true)) j' i' =
      if i = i' ∧ j = j' ∧ i < v.length ∧ j < (v.getD i []).length then true
      else visNatGet v j' i' := by
  rw [visNatGet_setRow, visRowGet_set]
  rcases eq_or_ne i i' with rfl | hii
  · rcases Nat.lt_or_ge i v.length with h | h
    · simp only [true_and, h, and_true]
      rcases eq_or_ne j j' with rfl | hjj
      · simp [visNatGet_def]
      · simp [hjj, visNatGet]
    · simp [Nat.not_lt.mpr h]
  · simp [hii]

theorem visGet_visSet (v : Visited) (c r x y : Int) :
    visGet (visSet v c r) x y =
      if x = c ∧ y = r ∧ 0 ≤ r ∧ 0 ≤ c ∧ r.toNat < v.length ∧
          c.toNat < (v.getD r.toNat []).length then true
      else visGet v x y := by
  by_cases hcr : 0 ≤ r ∧ 0 ≤ c
  · rw [visSet, if_pos hcr]
    by_cases hxy : 0 ≤ y ∧ 0 ≤ x
    · rw [visGet_eq_visNatGet _ hxy.2 hxy.1, visGet_eq_visNatGet _ hxy.2 hxy.1,
        visNatGet_set]
      congr 1
      simp only [eq_iff_iff]
      constructor
      · rintro ⟨hi, hj, hb, hrow⟩
        have hx : x = c := by omega
        have hy : y = r := by omega
        exact ⟨hx, hy, hcr.1, hcr.2, by omega, by omega⟩
      · rintro ⟨rfl, rfl, _, _, hb, hrow⟩
        exact ⟨rfl, rfl, hb, hrow⟩
    · have hcond : ¬(x = c ∧ y = r ∧ 0 ≤ r ∧ 0 ≤ c ∧ r.toNat < v.length ∧
          c.toNat < (v.getD r.toNat []).length) := by
        rintro ⟨rfl, rfl, _⟩; exact hxy ⟨hcr.1, hcr.2⟩
      rw [if_neg hcond]
      unfold visGet
      rw [if_neg (by tauto), if_neg (by tauto)]
  · rw [visSet, if_neg hcr]
    have hcond : ¬(x = c ∧ y = r ∧ 0 ≤ r ∧ 0 ≤ c ∧ r.toNat < v.length ∧
        c.toNat < (v.getD r.toNat []).length) := by
      rintro ⟨_, _, h1, h2, _⟩; exact hcr ⟨h1, h2⟩
    rw [if_neg hcond]

/-- A well-formed 5×11 visited grid. -/
def VisWF (v : Visited) : Prop :=
  v.length = 5 ∧ ∀ row ∈ v, row.length = 11

instance (v : Visited) : Decidable (VisWF v) := by
  unfold VisWF; infer_instance

theorem VisWF_iff (v : Visited) :
    VisWF v ↔ v.length = 5 ∧ ∀ i, i < 5 → (v.getD i []).length = 11 := by
  constructor
  · rintro ⟨hlen, hrow⟩
    refine ⟨hlen, fun i hi => ?_⟩
    have hi' : i < v.length := by omega
    rw [List.getD_eq_getElem?_getD, List.getElem?_eq_getElem hi', Option.getD_some]
    exact hrow _ (List.getElem_mem hi')
  · rintro ⟨hlen, hrow⟩
    refine ⟨hlen, fun row hmem => ?_⟩
    obtain ⟨i, hi, rfl⟩ := List.mem_iff_getElem.mp hmem
    have := hrow i (by omega)
    rwa [List.getD_eq_getElem?_getD, List.getElem?_eq_getElem hi,
      Option.getD_some] at this

theorem visSet_length (v : Visited) (c r : Int) :
    (visSet v c r).length = v.length := by
  unfold visSet; split <;> simp

theorem visSet_row_length (v : Visited) (c r : Int) (i : Nat) :
    ((visSet v c r).getD i []).length = (v.getD i []).length := by
  unfold visSet
  split
  · rcases eq_or_ne r.toNat i with heq | hne
    · subst heq
      rcases Nat.lt_or_ge r.toNat v.length with h | h
      · rw [List.getD_eq_getElem?_getD ((v.set r.toNat _)) r.toNat,
          List.getElem?_set_self (by simpa using h),
          Option.getD_some, List.length_set]
      · rw [List.set_eq_of_length_le (by simpa using h)]
    · rw [List.getD_eq_getElem?_getD (v.set r.toNat _) i, List.getElem?_set_ne hne,
        ← List.getD_eq_getElem?_getD]
  · rfl

theorem visSet_WF {v : Visited} (h : VisWF v) (c r : Int) :
    VisWF (visSet v c r) := by
  rw [VisWF_iff] at h ⊢
  refine ⟨by rw [visSet_length]; exact h.1, fun i hi => ?_⟩
  rw [visSet_row_length]; exact h.2 i hi

/-- Effective form of `visGet_visSet` on a well-formed grid at an
in-grid target. -/
theorem visGet_visSet_grid {v : Visited} {c r : Int} (hWF : VisWF v)
    (hg : inGrid c r) (x y : Int) :
    visGet (visSet v c r) x y = if x = c ∧ y = r then true else visGet v x y := by
  rw [visGet_visSet]
  obtain ⟨hlen, hrow⟩ := (VisWF_iff v).mp hWF
  unfold inGrid ROWS COLS at hg
  rcases eq_or_ne (x, y) (c, r) with heq | hne
  · obtain ⟨rfl, rfl⟩ : x = c ∧ y = r := by
      exact ⟨congrArg Prod.fst heq, congrArg Prod.snd heq⟩
    rw [if_pos ⟨rfl, rfl, by omega, by omega, by omega,
      by rw [hrow _ (by omega)]; omega⟩, if_pos ⟨rfl, rfl⟩]
  · have hne' : ¬(x = c ∧ y = r) := by
      rintro ⟨rfl, rfl⟩; exact hne rfl
    rw [if_neg (by rintro ⟨h1, h2, -⟩; exact hne' ⟨h1, h2⟩), if_neg hne']

/-- The set of marked cells of a visited grid. -/
def visitedSet (v : Visited) : Set (Int × Int) :=
  {p | visGet v p.1 p.2 = true}

theorem visitedSet_visSet {v : Visited} {c r : Int} (hWF : VisWF v)
    (hg : inGrid c r) :
    visitedSet (visSet v c r) = visitedSet v ∪ {(c, r)} := by
  ext p
  simp only [visitedSet, Set.mem_setOf_eq, Set.mem_union, Set.mem_singleton_iff,
    visGet_visSet_grid hWF hg]
  rcases eq_or_ne p (c, r) with rfl | hne
  · simp
  · have : ¬(p.1 = c ∧ p.2 = r) := by
      rintro ⟨h1, h2⟩
      exact hne (Prod.ext h1 h2)
    simp [this, hne]

theorem freshVisited_WF : VisWF freshVisited := by decide

theorem visNatGet_fresh (j i : Nat) : visNatGet freshVisited j i = false := by
  rw [visNatGet_def]
  unfold freshVisited
  rw [List.getElem?_replicate]
  split
  · show ((List.replicate 11 false)[j]?).getD false = false
    rw [List.getElem?_replicate]
    split <;> rfl
  · rfl

theorem visGet_fresh (x y : Int) : visGet freshVisited x y = false := by
  unfold visGet
  split
  · exact visNatGet_fresh x.toNat y.toNat
  · rfl

theorem visitedSet_fresh : visitedSet freshVisited = ∅ := by
  ext p
  simp [visitedSet, visGet_fresh]

/-! ## C6: connected regions of empty cells -/

/-- An empty grid cell. -/
def EmptyCellP (b : Board) (p : Int × Int) : Prop :=
  inGrid p.1 p.2 ∧ getCell b p.1 p.2 = none

instance (b : Board) (p : Int × Int) : Decidable (EmptyCellP b p) := by
  unfold EmptyCellP; infer_instance

/-- One 4-directional step between empty grid cells. -/
def adjStep (b : Board) (p q : Int × Int) : Prop :=
  EmptyCellP b p ∧ EmptyCellP b q ∧
    (p.1 - q.1).natAbs + (p.2 - q.2).natAbs = 1

/-- 4-directional connectivity through empty cells. -/
def reach (b : Board) : (Int × Int) → (Int × Int) → Prop :=
  Relation.ReflTransGen (adjStep b)

/-- The connected region of empty cells containing `p`. -/
def region (b : Board) (p : Int × Int) : Set (Int × Int) :=
  {q | reach b p q}

theorem adjStep_symm {b : Board} {p q : Int × Int} (h : adjStep b p q) :
    adjStep b q p := by
  obtain ⟨h1, h2, h3⟩ := h
  exact ⟨h2, h1, by omega⟩

theorem reach_symm {b : Board} {p q : Int × Int} (h : reach b p q) :
    reach b q p :=
  Relation.ReflTransGen.symmetric (fun _ _ h => adjStep_symm h) h

theorem reach_empty {b : Board} {p q : Int × Int} (h : reach b p q)
    (hp : EmptyCellP b p) : EmptyCellP b q := by
  induction h with
  | refl => exact hp
  | tail _ hstep _ => exact hstep.2.1

theorem mem_region_self (b : Board) (p : Int × Int) : p ∈ region b p :=
  Relation.ReflTransGen.refl

theorem region_eq_of_mem {b : Board} {p q : Int × Int}
    (h : q ∈ region b p) : region b q = region b p := by
  ext y
  exact ⟨fun hy => Relation.ReflTransGen.trans h hy,
    fun hy => Relation.ReflTransGen.trans (reach_symm h) hy⟩

/-- The grid as a finset. -/
def gridFinset : Finset (Int × Int) :=
  (Finset.Icc (0 : Int) 10) ×ˢ (Finset.Icc (0 : Int) 4)

/-- The grid as a set. -/
def gridSet : Set (Int × Int) := {p | inGrid p.1 p.2}

theorem gridSet_eq : gridSet = ↑gridFinset := by
  ext ⟨x, y⟩
  simp only [gridSet, Set.mem_setOf_eq, inGrid, ROWS, COLS, gridFinset,
    Finset.mem_coe, Finset.mem_product, Finset.mem_Icc]
  omega

theorem gridSet_finite : gridSet.Finite := by
  rw [gridSet_eq]; exact gridFinset.finite_toSet

theorem gridSet_ncard : gridSet.ncard = 55 := by
  rw [gridSet_eq, Set.ncard_coe_Finset]
  decide

theorem region_subset_grid {b : Board} {p : Int × Int}
    (hp : EmptyCellP b p) : region b p ⊆ gridSet := by
  intro q hq
  exact (reach_empty hq hp).1

theorem region_finite {b : Board} {p : Int × Int} (hp : EmptyCellP b p) :
    (region b p).Finite :=
  gridSet_finite.subset (region_subset_grid hp)

theorem region_ncard_le {b : Board} {p : Int × Int} (hp : EmptyCellP b p) :
    (region b p).ncard ≤ 55 := by
  rw [← gridSet_ncard]
  exact Set.ncard_le_ncard (region_subset_grid hp) gridSet_finite

/-! ## C6: BFS correctness -/

theorem nodup_length_le_ncard {A : List (Int × Int)} {T : Set (Int × Int)}
    (hnd : A.Nodup) (hsub : ∀ x ∈ A, x ∈ T) (hfin : T.Finite) :
    A.length ≤ T.ncard := by
  have h1 : ↑A.toFinset ⊆ T := fun x hx => hsub x (List.mem_toFinset.mp hx)
  have h2 := Set.ncard_le_ncard h1 hfin
  rwa [Set.ncard_coe_Finset, List.toFinset_card_of_nodup hnd] at h2

theorem setOf_mem_list_eq (A : List (Int × Int)) :
    {x | x ∈ A} = (↑A.toFinset : Set (Int × Int)) := by
  ext x
  simp

theorem ncard_setOf_mem_list {A : List (Int × Int)} (hnd : A.Nodup) :
    Set.ncard {x | x ∈ A} = A.length := by
  rw [setOf_mem_list_eq, Set.ncard_coe_Finset, List.toFinset_card_of_nodup hnd]

/-- Manhattan distance 1 means membership in the four-neighbour list
of `p` (in the source's order left, right, up, down). -/
theorem dist1_iff (c r : Int) (n : Int × Int) :
    (c - n.1).natAbs + (r - n.2).natAbs = 1 ↔
      n ∈ [(c - 1, r), (c + 1, r), (c, r - 1), (c, r + 1)] := by
  obtain ⟨x, y⟩ := n
  simp only [List.mem_cons, List.not_mem_nil, or_false, Prod.mk.injEq]
  omega

theorem bfsPush_cond_iff (b : Board) (v : Visited) (n : Int × Int) :
    (0 ≤ n.2 && n.2 < ROWS && 0 ≤ n.1 && n.1 < COLS &&
      getCell b n.1 n.2 == none && !(visGet v n.1 n.2)) = true ↔
    (EmptyCellP b n ∧ n ∉ visitedSet v) := by
  simp only [Bool.and_eq_true, decide_eq_true_eq, beq_iff_eq,
    Bool.not_eq_true', EmptyCellP, inGrid, visitedSet, Set.mem_setOf_eq]
  constructor
  · rintro ⟨⟨⟨⟨⟨h1, h2⟩, h3⟩, h4⟩, h5⟩, h6⟩
    exact ⟨⟨⟨h3, h4, h1, h2⟩, h5⟩, by simp [h6]⟩
  · rintro ⟨⟨⟨h3, h4, h1, h2⟩, h5⟩, h6⟩
    refine ⟨⟨⟨⟨⟨h1, h2⟩, h3⟩, h4⟩, h5⟩, ?_⟩
    cases hvg : visGet v n.1 n.2
    · rfl
    · exact absurd hvg h6

theorem bfsPush_foldl_spec (b : Board) :
    ∀ (ns : List (Int × Int)) (v : Visited) (q : List (Int × Int)),
    VisWF v →
    ∃ new : List (Int × Int),
      (ns.foldl (bfsPush b) (v, q)).2 = q ++ new ∧
      VisWF (ns.foldl (bfsPush b) (v, q)).1 ∧
      visitedSet (ns.foldl (bfsPush b) (v, q)).1 =
        visitedSet v ∪ {x | x ∈ new} ∧
      new.Nodup ∧
      (∀ n ∈ new, n ∈ ns ∧ EmptyCellP b n ∧ n ∉ visitedSet v) ∧
      (∀ n ∈ ns, EmptyCellP b n →
        n ∈ visitedSet (ns.foldl (bfsPush b) (v, q)).1) := by
  intro ns
  induction ns with
  | nil =>
    intro v q hWF
    exact ⟨[], by simp, hWF, by simp, List.nodup_nil, by simp, by simp⟩
  | cons n rest ih =>
    intro v q hWF
    simp only [List.foldl_cons]
    by_cases hcond : EmptyCellP b n ∧ n ∉ visitedSet v
    · have hbp : bfsPush b (v, q) n = (visSet v n.1 n.2, q ++ [n]) := by
        unfold bfsPush
        rw [if_pos ((bfsPush_cond_iff b v n).mpr hcond)]
      rw [hbp]
      obtain ⟨new', h1, h2, h3, h4, h5, h6⟩ :=
        ih (visSet v n.1 n.2) (q ++ [n]) (visSet_WF hWF _ _)
      have hvs : visitedSet (visSet v n.1 n.2) = visitedSet v ∪ {n} :=
        visitedSet_visSet hWF hcond.1.1
      refine ⟨n :: new', ?_, h2, ?_, ?_, ?_, ?_⟩
      · rw [h1]
        simp
      · rw [h3, hvs]
        ext x
        simp only [Set.mem_union, Set.mem_setOf_eq, List.mem_cons,
          Set.mem_singleton_iff]
        tauto
      · refine List.Nodup.cons ?_ h4
        intro hmem
        exact (h5 n hmem).2.2 (by rw [hvs]; right; rfl)
      · intro m hm
        rcases List.mem_cons.mp hm with rfl | hm
        · exact ⟨List.mem_cons_self _ _, hcond.1, hcond.2⟩
        · obtain ⟨hin, hemp, hnot⟩ := h5 m hm
          refine ⟨List.mem_cons_of_mem _ hin, hemp, fun hmV => ?_⟩
          exact hnot (by rw [hvs]; left; exact hmV)
      · intro m hm hemp
        rcases List.mem_cons.mp hm with rfl | hm
        · rw [h3, hvs]
          left; right; rfl
        · exact h6 m hm hemp
    · have hbp : bfsPush b (v, q) n = (v, q) := by
        unfold bfsPush
        rw [if_neg (fun hc => hcond ((bfsPush_cond_iff b v n).mp hc))]
      rw [hbp]
      obtain ⟨new', h1, h2, h3, h4, h5, h6⟩ := ih v q hWF
      refine ⟨new', h1, h2, h3, h4,
        fun m hm => ⟨List.mem_cons_of_mem _ (h5 m hm).1, (h5 m hm).2⟩, ?_⟩
      intro m hm hemp
      rcases List.mem_cons.mp hm with rfl | hm
      · have hmV : m ∈ visitedSet v := by
          by_contra hc
          exact hcond ⟨hemp, hc⟩
        rw [h3]
        left
        exact hmV
      · exact h6 m hm hemp

/-- The invariant of the BFS loop: `A` are the dequeued cells, `q` the
queue, `V0` the cells visited before this BFS started. -/
def BfsInv (b : Board) (V0 : Set (Int × Int)) (start : Int × Int)
    (A : List (Int × Int)) (v : Visited) (q : List (Int × Int)) : Prop :=
  VisWF v ∧
  visitedSet v = V0 ∪ {x | x ∈ A ++ q} ∧
  (A ++ q).Nodup ∧
  (∀ x ∈ A ++ q, x ∈ region b start) ∧
  (∀ x ∈ V0, x ∉ region b start) ∧
  start ∈ A ++ q ∧
  (∀ x ∈ A, ∀ n, adjStep b x n → n ∈ A ++ q)

theorem bfsLoop_spec (b : Board) (V0 : Set (Int × Int)) (start : Int × Int)
    (hstart : EmptyCellP b start) :
    ∀ (fuel : Nat) (A q : List (Int × Int)) (v : Visited) (size : Nat),
    BfsInv b V0 start A v q →
    ((region b start).ncard - (A ++ q).length) + q.length < fuel →
    size = A.length →
    (bfsLoop fuel b v q size).1 = (region b start).ncard ∧
    visitedSet (bfsLoop fuel b v q size).2 = V0 ∪ region b start := by
  intro fuel
  induction fuel with
  | zero => intro A q v size _ hm _; omega
  | succ fuel ih =>
    intro A q v size hinv hm hsize
    obtain ⟨hWF, hvis, hnd, hsub, hdisj, hstartM, hclosed⟩ := hinv
    cases q with
    | nil =>
      simp only [bfsLoop]
      have hAT : {x | x ∈ A} = region b start := by
        ext y
        simp only [Set.mem_setOf_eq]
        constructor
        · intro hy
          exact hsub y (by simpa using hy)
        · intro hy
          have : ∀ z, reach b start z → z ∈ A := by
            intro z hz
            induction hz with
            | refl => simpa using hstartM
            | tail hsteps hstep ihz =>
              rename_i x z
              have := hclosed x (by simpa using ihz) z hstep
              simpa using this
          exact this y hy
      have hcard : (region b start).ncard = A.length := by
        rw [← hAT, ncard_setOf_mem_list (by simpa using hnd)]
      constructor
      · simp [hcard, hsize]
      · rw [hvis, ← hAT]
        simp
    | cons hd rest =>
      obtain ⟨c, r⟩ := hd
      simp only [bfsLoop]
      have hcrT : (c, r) ∈ region b start := hsub _ (by simp)
      have hcrE : EmptyCellP b (c, r) := reach_empty hcrT hstart
      obtain ⟨new, h1, h2, h3, h4, h5, h6⟩ :=
        bfsPush_foldl_spec b [(c - 1, r), (c + 1, r), (c, r - 1), (c, r + 1)]
          v rest hWF
      set vq := [(c - 1, r), (c + 1, r), (c, r - 1), (c, r + 1)].foldl
        (bfsPush b) (v, rest) with hvq
      have hMset : ∀ x, x ∈ (A ++ [(c, r)]) ++ (rest ++ new) ↔
          x ∈ (A ++ (c, r) :: rest) ++ new := by
        intro x
        simp only [List.mem_append, List.mem_cons, List.mem_singleton]
        tauto
      have hnewT : ∀ n ∈ new, n ∈ region b start := by
        intro n hn
        obtain ⟨hns, hemp, _⟩ := h5 n hn
        have hadj : adjStep b (c, r) n := by
          refine ⟨hcrE, hemp, ?_⟩
          show (c - n.1).natAbs + (r - n.2).natAbs = 1
          exact (dist1_iff c r n).mpr hns
        exact Relation.ReflTransGen.tail hcrT hadj
      have hnewNotM : ∀ n ∈ new, n ∉ A ++ (c, r) :: rest := by
        intro n hn hmem
        exact (h5 n hn).2.2 (by rw [hvis]; right; exact hmem)
      have hnd' : ((A ++ [(c, r)]) ++ (rest ++ new)).Nodup := by
        have heq : (A ++ [(c, r)]) ++ (rest ++ new) =
            (A ++ (c, r) :: rest) ++ new := by
          simp
        rw [heq, List.nodup_append]
        exact ⟨hnd, h4, fun x hx hx' => hnewNotM x hx' hx⟩
      have hsub' : ∀ x ∈ (A ++ [(c, r)]) ++ (rest ++ new),
          x ∈ region b start := by
        intro x hx
        rw [hMset] at hx
        rcases List.mem_append.mp hx with hx | hx
        · exact hsub x (by simpa using hx)
        · exact hnewT x hx
      have hlen' : ((A ++ [(c, r)]) ++ (rest ++ new)).length ≤
          (region b start).ncard :=
        nodup_length_le_ncard hnd' hsub' (region_finite hstart)
      have hinv' : BfsInv b V0 start (A ++ [(c, r)]) vq.1 (rest ++ new) := by
        refine ⟨h2, ?_, hnd', hsub', hdisj, ?_, ?_⟩
        · rw [h3, hvis]
          ext x
          simp only [Set.mem_union, Set.mem_setOf_eq, List.mem_append,
            List.mem_cons, List.mem_singleton]
          tauto
        · rw [List.append_assoc]
          simp only [List.mem_append] at hstartM ⊢
          rcases hstartM with h | h
          · exact Or.inl h
          · rcases List.mem_cons.mp h with rfl | h
            · right; simp
            · right; simp [h]
        · intro x hx n hadj
          rcases List.mem_append.mp hx with hxA | hxcr
          · have := hclosed x hxA n hadj
            rw [hMset]
            simp only [List.mem_append] at this ⊢
            rcases this with h | h
            · exact Or.inl (Or.inl h)
            · rcases List.mem_cons.mp h with rfl | h
              · exact Or.inl (Or.inr (by simp))
              · exact Or.inl (Or.inr (by simp [h]))
          · have hxeq : x = (c, r) := by simpa using hxcr
            subst hxeq
            have hnT : n ∈ region b start :=
              Relation.ReflTransGen.tail hcrT hadj
            have hns : n ∈ [(c - 1, r), (c + 1, r), (c, r - 1), (c, r + 1)] :=
              (dist1_iff c r n).mp hadj.2.2
            have hnvis := h6 n hns hadj.2.1
            rw [h3, hvis] at hnvis
            rcases hnvis with hnvis | hnvis
            · rcases hnvis with hnvis | hnvis
              · exact absurd hnT (hdisj n hnvis)
              · rw [hMset]
                simp only [List.mem_append]
                exact Or.inl (by simpa using hnvis)
            · rw [hMset]
              simp only [List.mem_append]
              exact Or.inr (by simpa using hnvis)
      have hm' : ((region b start).ncard -
            ((A ++ [(c, r)]) ++ (rest ++ new)).length) +
          (rest ++ new).length < fuel := by
        simp only [List.length_append, List.length_cons,
          List.length_singleton] at hm hlen' ⊢
        omega
      have hrec := ih (A ++ [(c, r)]) (rest ++ new) vq.1 (size + 1)
        hinv' hm' (by simp [hsize])
      rw [← h1] at hrec
      exact hrec

theorem bfsPush_WF {b : Board} {vq : Visited × List (Int × Int)}
    (h : VisWF vq.1) (n : Int × Int) : VisWF (bfsPush b vq n).1 := by
  unfold bfsPush
  split
  · exact visSet_WF h _ _
  · exact h

theorem foldl_bfsPush_WF {b : Board} :
    ∀ (ns : List (Int × Int)) (vq : Visited × List (Int × Int)),
    VisWF vq.1 → VisWF ((ns.foldl (bfsPush b) vq)).1 := by
  intro ns
  induction ns with
  | nil => intro vq h; exact h
  | cons n rest ih => intro vq h; exact ih _ (bfsPush_WF h n)

theorem bfsLoop_WF {b : Board} :
    ∀ (fuel : Nat) (q : List (Int × Int)) (v : Visited) (size : Nat),
    VisWF v → VisWF (bfsLoop fuel b v q size).2 := by
  intro fuel
  induction fuel with
  | zero => intro q v size h; exact h
  | succ fuel ih =>
    intro q v size h
    cases q with
    | nil => exact h
    | cons hd rest =>
      obtain ⟨c, r⟩ := hd
      simp only [bfsLoop]
      exact ih _ _ _ (foldl_bfsPush_WF _ _ h)

/-- `bfsRegionSize` on a fresh start cell returns the exact cardinality
of the start cell's connected empty region and marks exactly that
region as newly visited. -/
theorem bfsRegionSize_spec {b : Board} {v : Visited} {sc sr : Int}
    (hWF : VisWF v) (hstart : EmptyCellP b (sc, sr))
    (hdisj : ∀ x ∈ visitedSet v, x ∉ region b (sc, sr)) :
    (bfsRegionSize b v sc sr).1 = (region b (sc, sr)).ncard ∧
    visitedSet (bfsRegionSize b v sc sr).2 =
      visitedSet v ∪ region b (sc, sr) := by
  have hg : inGrid sc sr := hstart.1
  have hinv : BfsInv b (visitedSet v) (sc, sr) [] (visSet v sc sr)
      [(sc, sr)] := by
    refine ⟨visSet_WF hWF _ _, ?_, by simp, ?_, hdisj, by simp, by simp⟩
    · rw [visitedSet_visSet hWF hg]
      ext x
      simp
    · intro x hx
      simp only [List.nil_append, List.mem_singleton] at hx
      subst hx
      exact mem_region_self b (sc, sr)
  have hm : ((region b (sc, sr)).ncard -
        (([] : List (Int × Int)) ++ [(sc, sr)]).length) +
      ([(sc, sr)] : List (Int × Int)).length < 57 := by
    have h55 := region_ncard_le hstart
    simp only [List.nil_append, List.length_singleton]
    omega
  exact bfsLoop_spec b (visitedSet v) (sc, sr) hstart 57 [] [(sc, sr)]
    (visSet v sc sr) 0 hinv hm rfl

/-- Correctness of the scan loop of `hasDeadIslands`, under the scan
invariant: every visited cell is empty with its whole region visited
and not too small, and every unvisited empty cell still has its
coordinates in the remaining scan list. -/
theorem scanIslands_spec (b : Board) (m : Nat) :
    ∀ (cells : List (Nat × Nat)) (v : Visited),
    VisWF v →
    (∀ x ∈ visitedSet v, EmptyCellP b x ∧ region b x ⊆ visitedSet v ∧
      m ≤ (region b x).ncard) →
    (∀ p : Int × Int, EmptyCellP b p → p ∉ visitedSet v →
      ∃ rc ∈ cells, ((rc.2 : Int), (rc.1 : Int)) = p) →
    (∀ rc ∈ cells, rc.1 < 5 ∧ rc.2 < 11) →
    (scanIslands b m cells v = true ↔
      ∃ p, EmptyCellP b p ∧ (region b p).ncard < m) := by
  intro cells
  induction cells with
  | nil =>
    intro v hWF hinv hcov hbnd
    have hfalse : scanIslands b m [] v = false := rfl
    rw [hfalse]
    simp only [Bool.false_eq_true, false_iff]
    rintro ⟨p, hemp, hlt⟩
    by_cases hv : p ∈ visitedSet v
    · exact absurd hlt (not_lt.mpr (hinv p hv).2.2)
    · obtain ⟨rc, hrc, _⟩ := hcov p hemp hv
      exact absurd hrc (List.not_mem_nil rc)
  | cons hd rest ih =>
    intro v hWF hinv hcov hbnd
    obtain ⟨r, c⟩ := hd
    by_cases hc : getCell b (c : Int) (r : Int) = none ∧
        visGet v (c : Int) (r : Int) = false
    · have hpc : EmptyCellP b ((c : Int), (r : Int)) := by
        refine ⟨?_, hc.1⟩
        have hb := hbnd (r, c) (List.mem_cons_self _ _)
        unfold inGrid ROWS COLS
        omega
      have hpcnv : ((c : Int), (r : Int)) ∉ visitedSet v := by
        simp only [visitedSet, Set.mem_setOf_eq]
        simp [hc.2]
      have hdisj : ∀ x ∈ visitedSet v,
          x ∉ region b ((c : Int), (r : Int)) := by
        intro x hx hxr
        have hregeq := region_eq_of_mem hxr
        have hmem : ((c : Int), (r : Int)) ∈ region b x := by
          rw [hregeq]
          exact mem_region_self b _
        exact hpcnv ((hinv x hx).2.1 hmem)
      obtain ⟨hsz, hvs⟩ := bfsRegionSize_spec hWF hpc hdisj
      have hscan : scanIslands b m ((r, c) :: rest) v =
          (if (bfsRegionSize b v (c : Int) (r : Int)).1 < m then true
           else scanIslands b m rest
             (bfsRegionSize b v (c : Int) (r : Int)).2) := by
        simp only [scanIslands]
        rw [if_pos hc]
      rw [hscan]
      by_cases hlt : (bfsRegionSize b v (c : Int) (r : Int)).1 < m
      · rw [if_pos hlt]
        constructor
        · intro _
          exact ⟨((c : Int), (r : Int)), hpc, by rw [← hsz]; exact hlt⟩
        · intro _
          rfl
      · rw [if_neg hlt]
        have hWF2 : VisWF (bfsRegionSize b v (c : Int) (r : Int)).2 :=
          bfsLoop_WF 57 [((c : Int), (r : Int))] (visSet v (c : Int) (r : Int))
            0 (visSet_WF hWF _ _)
        apply ih _ hWF2
        · intro x hx
          rw [hvs] at hx
          rcases hx with hx | hx
          · obtain ⟨he, hr', hm'⟩ := hinv x hx
            exact ⟨he, fun y hy => by rw [hvs]; exact Or.inl (hr' hy), hm'⟩
          · have hregeq := region_eq_of_mem hx
            refine ⟨reach_empty hx hpc, ?_, ?_⟩
            · intro y hy
              rw [hvs]
              rw [hregeq] at hy
              exact Or.inr hy
            · rw [hregeq, ← hsz]
              omega
        · intro p hemp hnv
          have hnv1 : p ∉ visitedSet v := fun hp =>
            hnv (by rw [hvs]; exact Or.inl hp)
          have hnv2 : p ∉ region b ((c : Int), (r : Int)) := fun hp =>
            hnv (by rw [hvs]; exact Or.inr hp)
          obtain ⟨rc, hrc, heq⟩ := hcov p hemp hnv1
          rcases List.mem_cons.mp hrc with rfl | hrc'
          · simp only at heq
            subst heq
            exact absurd (mem_region_self b _) hnv2
          · exact ⟨rc, hrc', heq⟩
        · intro rc hrc
          exact hbnd rc (List.mem_cons_of_mem _ hrc)
    · have hscan : scanIslands b m ((r, c) :: rest) v =
          scanIslands b m rest v := by
        simp only [scanIslands]
        rw [if_neg hc]
      rw [hscan]
      apply ih v hWF hinv
      · intro p hemp hnv
        obtain ⟨rc, hrc, heq⟩ := hcov p hemp hnv
        rcases List.mem_cons.mp hrc with rfl | hrc'
        · simp only at heq
          subst heq
          have hvg : visGet v (c : Int) (r : Int) = false := by
            cases hvg2 : visGet v (c : Int) (r : Int)
            · rfl
            · exact absurd hvg2 (by simpa [visitedSet] using hnv)
          exact absurd ⟨hemp.2, hvg⟩ hc
        · exact ⟨rc, hrc', heq⟩
      · intro rc hrc
        exact hbnd rc (List.mem_cons_of_mem _ hrc)

/-- `hasDeadIslands` returns `true` exactly when some 4-directionally
connected region of currently empty cells has strictly fewer cells
than the minimum remaining piece size. -/
theorem hasDeadIslands_iff (b : Board) (m : Nat) :
    hasDeadIslands b m = true ↔
      ∃ p, EmptyCellP b p ∧ (region b p).ncard < m := by
  by_cases hm : m ≤ 1
  · have h0 : hasDeadIslands b m = false := by
      unfold hasDeadIslands
      rw [if_pos hm]
    rw [h0]
    simp only [Bool.false_eq_true, false_iff]
    rintro ⟨p, hemp, hlt⟩
    have h1 : 0 < (region b p).ncard :=
      (Set.ncard_pos (region_finite hemp)).mpr ⟨p, mem_region_self b p⟩
    omega
  · have h0 : hasDeadIslands b m =
        scanIslands b m gridCells freshVisited := by
      unfold hasDeadIslands
      rw [if_neg hm]
    rw [h0]
    apply scanIslands_spec b m gridCells freshVisited freshVisited_WF
    · intro x hx
      rw [visitedSet_fresh] at hx
      exact absurd hx (Set.not_mem_empty x)
    · intro p hemp _
      obtain ⟨pc, pr⟩ := p
      have hb := hemp.1
      unfold inGrid ROWS COLS at hb
      refine ⟨(pr.toNat, pc.toNat), ?_, ?_⟩
      · simp only [gridCells, List.mem_flatMap, List.mem_map, List.mem_range]
        exact ⟨pr.toNat, by omega, pc.toNat, by omega, rfl⟩
      · simp only [Prod.mk.injEq]
        omega
    · have hb : ∀ rc ∈ gridCells, rc.1 < 5 ∧ rc.2 < 11 := by decide
      exact hb

/-- C6: for every board and every minimum remaining piece size,
`hasDeadIslands` returns `true` exactly when some 4-directionally
connected region of currently empty cells has strictly fewer cells
than that minimum. -/
theorem claim_C6 (b : Board) (m : Nat) :
    hasDeadIslands b m = true ↔
      ∃ p, EmptyCellP b p ∧ (region b p).ncard < m :=
  hasDeadIslands_iff b m

/-! ## C1: completeness of the packer -/

theorem findFirstEmpty_some_spec {bd : Board} {tc tr : Int}
    (h : findFirstEmpty bd = some (tc, tr)) :
    inGrid tc tr ∧ getCell bd tc tr = none := by
  unfold findFirstEmpty at h
  obtain ⟨r, hr, hfr⟩ := List.exists_of_findSome?_eq_some h
  obtain ⟨c, hc, hfc⟩ := List.exists_of_findSome?_eq_some hfr
  rw [List.mem_range] at hr hc
  split at hfc
  · rename_i hnone
    rw [Option.some.injEq, Prod.mk.injEq] at hfc
    obtain ⟨h1, h2⟩ := hfc
    subst h1
    subst h2
    refine ⟨?_, hnone⟩
    unfold inGrid ROWS COLS
    omega
  · exact absurd hfc (by simp)

theorem candidates_mem_of {snap : List String} {pid : String} {oi : Nat}
    {shape : Shape} {cell : Int × Int} (h1 : pid ∈ snap)
    (h2 : (ORIENTATIONS pid)[oi]? = some shape) (h3 : cell ∈ shape) :
    (pid, oi, shape, cell) ∈ candidates snap := by
  unfold candidates
  rw [List.mem_flatMap]
  refine ⟨pid, h1, ?_⟩
  rw [List.mem_flatMap]
  have hlt : oi < (ORIENTATIONS pid).length := by
    by_contra hge
    rw [List.getElem?_eq_none (by omega)] at h2
    exact Option.noConfusion h2
  exact ⟨(oi, shape), List.mk_mem_enum_iff_getElem?.mpr h2,
    List.mem_map.mpr ⟨cell, h3, rfl⟩⟩

theorem foldl_min_le (xs : List Nat) :
    ∀ (x : Nat), ∀ y ∈ x :: xs, xs.foldl min x ≤ y := by
  induction xs with
  | nil =>
    intro x y hy
    rw [List.mem_singleton] at hy
    subst hy
    exact Nat.le_refl _
  | cons z zs ih =>
    intro x y hy
    simp only [List.foldl_cons]
    have h0 : zs.foldl min (min x z) ≤ min x z :=
      ih (min x z) _ (List.mem_cons_self _ _)
    rcases List.mem_cons.mp hy with rfl | hy
    · exact le_trans h0 (min_le_left _ _)
    rcases List.mem_cons.mp hy with rfl | hy
    · exact le_trans h0 (min_le_right _ _)
    · exact ih (min x z) y (List.mem_cons_of_mem _ hy)

theorem minRemainingSize_le {r : List String} {pid : String} (h : pid ∈ r) :
    minRemainingSize r ≤ pieceSize pid := by
  unfold minRemainingSize
  cases r with
  | nil => exact absurd h (List.not_mem_nil pid)
  | cons a rs =>
    simp only [List.map_cons]
    rcases List.mem_cons.mp h with rfl | h
    · exact foldl_min_le _ _ _ (List.mem_cons_self _ _)
    · exact foldl_min_le _ _ _
        (List.mem_cons_of_mem _ (List.mem_map_of_mem _ h))

/-! ### Connectivity of the orientation shapes -/

/-- 4-adjacency of two cells, as a Boolean. -/
def adjCellB (a b : Int × Int) : Bool :=
  (a.1 - b.1).natAbs + (a.2 - b.2).natAbs == 1

/-- One closure step: add the shape cells adjacent to the current set. -/
def growOnce (shape cur : List (Int × Int)) : List (Int × Int) :=
  cur ++ shape.filter fun s =>
    if s ∈ cur then false else cur.any (adjCellB s)

def growN : Nat → List (Int × Int) → List (Int × Int) → List (Int × Int)
  | 0, _, cur => cur
  | n + 1, shape, cur => growN n shape (growOnce shape cur)

/-- Boolean 4-connectivity of a shape: every cell is in the adjacency
closure of the first cell within the shape. -/
def shapeConnB : Shape → Bool
  | [] => true
  | c0 :: rest =>
    (c0 :: rest).all fun s =>
      decide (s ∈ growN (c0 :: rest).length (c0 :: rest) [c0])

/-- Reachability between cells stepping through members of `shape`. -/
def cellReach (shape : List (Int × Int)) : (Int × Int) → (Int × Int) → Prop :=
  Relation.ReflTransGen fun x y => y ∈ shape ∧ adjCellB x y = true

theorem adjCellB_symm {a b : Int × Int} (h : adjCellB a b = true) :
    adjCellB b a = true := by
  unfold adjCellB at h ⊢
  rw [beq_iff_eq] at h ⊢
  omega

theorem cellReach_mem {shape : List (Int × Int)} {a b : Int × Int}
    (h : cellReach shape a b) : b = a ∨ b ∈ shape := by
  induction h with
  | refl => exact Or.inl rfl
  | tail _ hstep _ => exact Or.inr hstep.1

theorem cellReach_symm {shape : List (Int × Int)} {a b : Int × Int}
    (ha : a ∈ shape) (h : cellReach shape a b) : cellReach shape b a := by
  induction h with
  | refl => exact Relation.ReflTransGen.refl
  | tail hsteps hstep ihz =>
    rename_i y z
    have hy : y ∈ shape := by
      rcases cellReach_mem hsteps with rfl | hy
      · exact ha
      · exact hy
    exact Relation.ReflTransGen.trans
      (Relation.ReflTransGen.single ⟨hy, adjCellB_symm hstep.2⟩) ihz

theorem growOnce_reach {shape cur : List (Int × Int)} {c0 : Int × Int}
    (hcur : ∀ x ∈ cur, cellReach shape c0 x) :
    ∀ x ∈ growOnce shape cur, cellReach shape c0 x := by
  intro x hx
  rcases List.mem_append.mp hx with hx | hx
  · exact hcur x hx
  · rw [List.mem_filter] at hx
    obtain ⟨hxs, hcond⟩ := hx
    split at hcond
    · exact absurd hcond (by simp)
    · obtain ⟨y, hy, hadj⟩ := List.any_eq_true.mp hcond
      exact Relation.ReflTransGen.tail (hcur y hy) ⟨hxs, adjCellB_symm hadj⟩

theorem growN_reach {shape : List (Int × Int)} {c0 : Int × Int} :
    ∀ (n : Nat) (cur : List (Int × Int)),
    (∀ x ∈ cur, cellReach shape c0 x) →
    ∀ x ∈ growN n shape cur, cellReach shape c0 x := by
  intro n
  induction n with
  | zero => intro cur hcur; exact hcur
  | succ n ih => intro cur hcur; exact ih _ (growOnce_reach hcur)

theorem shapeConnB_reach {shape : Shape} (hconn : shapeConnB shape = true) :
    ∀ a ∈ shape, ∀ b ∈ shape, cellReach shape a b := by
  cases shape with
  | nil => intro a ha; exact absurd ha (List.not_mem_nil a)
  | cons c0 rest =>
    have hall := List.all_eq_true.mp hconn
    have hreach0 : ∀ x ∈ c0 :: rest, cellReach (c0 :: rest) c0 x := by
      intro x hx
      have hg := of_decide_eq_true (hall x hx)
      refine growN_reach _ _ ?_ x hg
      intro z hz
      rw [List.mem_singleton] at hz
      subst hz
      exact Relation.ReflTransGen.refl
    intro a ha b hb
    exact Relation.ReflTransGen.trans
      (cellReach_symm (List.mem_cons_self _ _) (hreach0 a ha)) (hreach0 b hb)

/-- A shape whose translated cells are all empty grid cells connects
any two of its translated cells through empty cells of the board. -/
theorem reach_of_shapeConn {b1 : Board} {shape : Shape} {col row : Int}
    (hconn : shapeConnB shape = true)
    (hcells : ∀ q ∈ shapeCells shape col row, EmptyCellP b1 q) :
    ∀ x ∈ shape, ∀ y ∈ shape,
      reach b1 (col + x.1, row + x.2) (col + y.1, row + y.2) := by
  intro x hx y hy
  have hcr := shapeConnB_reach hconn x hx y hy
  clear hy
  induction hcr with
  | refl => exact Relation.ReflTransGen.refl
  | tail hsteps hstep ihz =>
    rename_i u w
    have hu : u ∈ shape := by
      rcases cellReach_mem hsteps with rfl | hu
      · exact hx
      · exact hu
    refine Relation.ReflTransGen.tail ihz ?_
    refine ⟨hcells _ (List.mem_map_of_mem _ hu),
      hcells _ (List.mem_map_of_mem _ hstep.1), ?_⟩
    have hadj := hstep.2
    unfold adjCellB at hadj
    rw [beq_iff_eq] at hadj
    simp only
    omega

/-- Facts decided over the whole orientation table: every orientation
shape has the base piece's cell count, no repeated cells, and is
4-connected. -/
theorem orient_facts (pid : String) : ∀ shape ∈ ORIENTATIONS pid,
    shape.length = pieceSize pid ∧ 0 < shape.length ∧ shape.Nodup ∧
      shapeConnB shape = true := by
  unfold ORIENTATIONS
  by_cases hA : pid = "A"
  · subst hA; decide
  rw [if_neg (by simpa using hA)]
  by_cases hB : pid = "B"
  · subst hB; decide
  rw [if_neg (by simpa using hB)]
  by_cases hC : pid = "C"
  · subst hC; decide
  rw [if_neg (by simpa using hC)]
  by_cases hD : pid = "D"
  · subst hD; decide
  rw [if_neg (by simpa using hD)]
  by_cases hE : pid = "E"
  · subst hE; decide
  rw [if_neg (by simpa using hE)]
  by_cases hF : pid = "F"
  · subst hF; decide
  rw [if_neg (by simpa using hF)]
  by_cases hG : pid = "G"
  · subst hG; decide
  rw [if_neg (by simpa using hG)]
  by_cases hH : pid = "H"
  · subst hH; decide
  rw [if_neg (by simpa using hH)]
  by_cases hI : pid = "I"
  · subst hI; decide
  rw [if_neg (by simpa using hI)]
  by_cases hJ : pid = "J"
  · subst hJ; decide
  rw [if_neg (by simpa using hJ)]
  by_cases hK : pid = "K"
  · subst hK; decide
  rw [if_neg (by simpa using hK)]
  by_cases hL : pid = "L"
  · subst hL; decide
  rw [if_neg (by simpa using hL)]
  intro shape hs
  exact absurd hs (List.not_mem_nil shape)

/-! ### Exact completions -/

/-- `sol` is an exact completion of board `b` using distinct pieces
drawn from `r` with table orientations: laid in order it is legal and
fills the board. -/
def Completes (b : Board) (r : List String) (sol : List Placement) : Prop :=
  validSeqB b sol = true ∧
  findFirstEmpty (applyPlacements b sol) = none ∧
  (sol.map Placement.pieceId).Nodup ∧
  (∀ p ∈ sol, p.pieceId ∈ r) ∧
  (∀ p ∈ sol, (ORIENTATIONS p.pieceId)[p.orientationIndex]? = some p.shape)

instance (b : Board) (r : List String) (sol : List Placement) :
    Decidable (Completes b r sol) := by
  unfold Completes
  infer_instance

theorem Completes_perm_ids {b : Board} {r r' : List String}
    {sol : List Placement} (h : r.Perm r') (hc : Completes b r sol) :
    Completes b r' sol :=
  ⟨hc.1, hc.2.1, hc.2.2.1, fun p hp => h.mem_iff.mp (hc.2.2.2.1 p hp),
    hc.2.2.2.2⟩

/-- A sequence of pairwise disjoint placements on empty grid cells is
a valid sequence in any order. -/
theorem validSeqB_of : ∀ (sol : List Placement) (b : Board),
    (∀ p ∈ sol, ∀ q ∈ cellsOf p, inGrid q.1 q.2 ∧ getCell b q.1 q.2 = none) →
    List.Pairwise (fun p q => ∀ z ∈ cellsOf p, z ∉ cellsOf q) sol →
    validSeqB b sol = true := by
  intro sol
  induction sol with
  | nil => intro b _ _; rfl
  | cons p0 rest ih =>
    intro b hcells hpw
    obtain ⟨hhead, htail⟩ := List.pairwise_cons.mp hpw
    rw [validSeqB_cons]
    constructor
    · rw [canPlace_iff]
      intro cell hcell
      exact hcells p0 (List.mem_cons_self _ _) (p0.col + cell.1, p0.row + cell.2)
        (List.mem_map_of_mem _ hcell)
    · apply ih
      · intro p hp q hq
        refine ⟨(hcells p (List.mem_cons_of_mem _ hp) q hq).1, ?_⟩
        have hnot : (q.1, q.2) ∉ shapeCells p0.shape p0.col p0.row := by
          intro hmem
          exact hhead p hp q (by simpa [cellsOf] using hmem) hq
        rw [placePiece_eq_writeCells,
          getCell_writeCells_notMem _ _ _ _ _ _ _ hnot]
        exact (hcells p (List.mem_cons_of_mem _ hp) q hq).2
      · exact htail

theorem validSeqB_perm {b : Board} {sol sol' : List Placement}
    (hWF : BoardWF b) (hperm : sol.Perm sol')
    (hv : validSeqB b sol = true) : validSeqB b sol' = true := by
  apply validSeqB_of
  · intro p hp q hq
    have hp0 := hperm.mem_iff.mpr hp
    exact ⟨validSeq_inGrid hv p hp0 q hq, validSeq_empty_start hv p hp0 q hq⟩
  · exact (validSeq_pairwise_disjoint hWF hv).perm hperm
      (fun h z hzb hza => h z hza hzb)

theorem applyPlacements_full_perm {b : Board} {sol sol' : List Placement}
    (hWF : BoardWF b) (hperm : sol.Perm sol')
    (hv : validSeqB b sol = true) (hv' : validSeqB b sol' = true)
    (hfull : findFirstEmpty (applyPlacements b sol) = none) :
    findFirstEmpty (applyPlacements b sol') = none := by
  rw [findFirstEmpty_eq_none_iff] at hfull ⊢
  intro x y hgrid hnone
  rw [getCell_applyPlacements hWF hv' hgrid] at hnone
  apply hfull x y hgrid
  rw [getCell_applyPlacements hWF hv hgrid]
  exact ⟨hnone.1, fun p hp => hnone.2 p (hperm.mem_iff.mp hp)⟩

/-- Extracting any placement of a completion: it is legal on `b`, and
the rest completes the board with that piece placed. -/
theorem Completes_extract {b : Board} {r : List String}
    {sol : List Placement} (hWF : BoardWF b) (hc : Completes b r sol)
    {p : Placement} (hp : p ∈ sol) :
    canPlace b p.shape p.col p.row = true ∧
    Completes (placePiece b p.pieceId p.shape p.col p.row)
      (r.erase p.pieceId) (sol.erase p) := by
  obtain ⟨hv, hfull, hnd, hmemr, htab⟩ := hc
  have hperm : sol.Perm (p :: sol.erase p) := List.perm_cons_erase hp
  have hv' : validSeqB b (p :: sol.erase p) = true :=
    validSeqB_perm hWF hperm hv
  obtain ⟨hcan, hvrest⟩ := validSeqB_cons.mp hv'
  have hnd' : ((p :: sol.erase p).map Placement.pieceId).Nodup :=
    (hperm.map Placement.pieceId).nodup hnd
  rw [List.map_cons, List.nodup_cons] at hnd'
  refine ⟨hcan, hvrest, ?_, hnd'.2, ?_, ?_⟩
  · have hfull' : findFirstEmpty (applyPlacements b (p :: sol.erase p)) =
        none := applyPlacements_full_perm hWF hperm hv hv' hfull
    rw [applyPlacements_cons] at hfull'
    exact hfull'
  · intro p' hp'
    have hp'2 : p' ∈ sol := hperm.mem_iff.mpr (List.mem_cons_of_mem _ hp')
    have hne : p'.pieceId ≠ p.pieceId := by
      intro heq
      exact hnd'.1 (heq ▸ List.mem_map_of_mem _ hp')
    exact (List.mem_erase_of_ne hne).mpr (hmemr p' hp'2)
  · intro p' hp'
    exact htab p' (hperm.mem_iff.mpr (List.mem_cons_of_mem _ hp'))

/-- The cells of a placement with a connected duplicate-free shape all
lie in the empty region of any one of them. -/
theorem region_ge_of_placement {b1 : Board} {p' : Placement}
    (hconn : shapeConnB p'.shape = true) (hnd : p'.shape.Nodup)
    (hcells : ∀ q ∈ cellsOf p', EmptyCellP b1 q)
    {q : Int × Int} (hq : q ∈ cellsOf p') :
    p'.shape.length ≤ (region b1 q).ncard := by
  obtain ⟨x0, hx0, hx0e⟩ := List.mem_map.mp hq
  have hsub : ∀ z ∈ cellsOf p', z ∈ region b1 q := by
    intro z hz
    obtain ⟨y, hy, hye⟩ := List.mem_map.mp hz
    rw [← hx0e, ← hye]
    exact reach_of_shapeConn hconn hcells x0 hx0 y hy
  have hndc : (cellsOf p').Nodup := by
    refine List.Nodup.map ?_ hnd
    intro a b hab
    rw [Prod.mk.injEq] at hab
    rw [Prod.ext_iff]
    constructor
    · have := hab.1; omega
    · have := hab.2; omega
  have hfin : (region b1 q).Finite := region_finite (hcells q hq)
  have hlen := nodup_length_le_ncard hndc hsub hfin
  simp only [cellsOf, shapeCells, List.length_map] at hlen
  exact hlen

/-- Pruning soundness: a board that still has an exact completion from
the remaining pieces has no empty region smaller than the smallest
remaining piece, so `hasDeadIslands` does not fire. -/
theorem no_dead_islands_of_completes {b1 : Board} {r1 : List String}
    {sol : List Placement} (hWF : BoardWF b1) (hc : Completes b1 r1 sol) :
    hasDeadIslands b1 (minRemainingSize r1) = false := by
  by_contra h
  rw [Bool.not_eq_false] at h
  obtain ⟨q, hqE, hqlt⟩ := (hasDeadIslands_iff _ _).mp h
  obtain ⟨hv, hfull, hnd, hmemr, htab⟩ := hc
  have hcov : ∃ p ∈ sol, q ∈ cellsOf p := by
    by_contra hno
    push_neg at hno
    have hempty : getCell (applyPlacements b1 sol) q.1 q.2 = none := by
      rw [getCell_applyPlacements hWF hv hqE.1]
      refine ⟨hqE.2, ?_⟩
      intro p hp
      have := hno p hp
      intro hmq
      exact this (by simpa using hmq)
    exact (findFirstEmpty_eq_none_iff _).mp hfull _ _ hqE.1 hempty
  obtain ⟨p', hp', hqp'⟩ := hcov
  have hshape : p'.shape ∈ ORIENTATIONS p'.pieceId := by
    obtain ⟨hlt, heq⟩ := List.getElem?_eq_some_iff.mp (htab p' hp')
    exact heq ▸ List.getElem_mem hlt
  obtain ⟨hlen, hpos, hndsh, hconn⟩ := orient_facts _ _ hshape
  have hcells : ∀ z ∈ cellsOf p', EmptyCellP b1 z := by
    intro z hz
    exact ⟨validSeq_inGrid hv p' hp' z hz, validSeq_empty_start hv p' hp' z hz⟩
  have hge := region_ge_of_placement hconn hndsh hcells hqp'
  have hmin := minRemainingSize_le (hmemr p' hp')
  omega

/-- If some candidate in the list can be placed and leaves a position
that still has a completion small enough for the remaining fuel, the
candidate loop succeeds. -/
theorem solveTry_complete (fuel : Nat)
    (IHc : ∀ b r sol, BoardWF b → Completes b r sol → sol.length < fuel →
      (solveGo fuel b r).1 ≠ none) :
    ∀ (cands : List (String × Nat × Shape × (Int × Int))) (b : Board)
      (cur : List String) (tc tr : Int),
    BoardWF b →
    (∀ cand ∈ cands, cand.1 ∈ cur) →
    (∃ cand ∈ cands, ∃ sol : List Placement,
      canPlace b cand.2.2.1 (tc - cand.2.2.2.1) (tr - cand.2.2.2.2) = true ∧
      Completes (placePiece b cand.1 cand.2.2.1 (tc - cand.2.2.2.1)
        (tr - cand.2.2.2.2)) (cur.erase cand.1) sol ∧
      sol.length < fuel) →
    (solveTry (solveGo fuel) tc tr b cur cands).1 ≠ none := by
  intro cands
  induction cands with
  | nil =>
    rintro b cur tc tr _ _ ⟨cand, hmem, -⟩
    exact absurd hmem (List.not_mem_nil cand)
  | cons cand0 rest ih =>
    rintro b cur tc tr hWF hall ⟨cand, hmem, sol, hcan, hcomp, hlen⟩
    obtain ⟨pid0, oi0, shape0, cell0⟩ := cand0
    have hpid0 : pid0 ∈ cur := hall _ (List.mem_cons_self _ _)
    have herase : ((cur.erase pid0) ++ [pid0]).Perm cur :=
      (List.perm_append_singleton _ _).trans (List.perm_cons_erase hpid0).symm
    have hall' : ∀ (cur' : List String), cur'.Perm cur →
        ∀ cand ∈ rest, cand.1 ∈ cur' := by
      intro cur' hp cand hc
      exact hp.mem_iff.mpr (hall _ (List.mem_cons_of_mem _ hc))
    have hsucc' : ∀ (cur' : List String), cur'.Perm cur → cand ∈ rest →
        ∃ cand ∈ rest, ∃ sol : List Placement,
          canPlace b cand.2.2.1 (tc - cand.2.2.2.1) (tr - cand.2.2.2.2) = true ∧
          Completes (placePiece b cand.1 cand.2.2.1 (tc - cand.2.2.2.1)
            (tr - cand.2.2.2.2)) (cur'.erase cand.1) sol ∧
          sol.length < fuel := by
      intro cur' hp hcr
      refine ⟨cand, hcr, sol, hcan, ?_, hlen⟩
      exact Completes_perm_ids ((hp.erase cand.1).symm) hcomp
    rcases List.mem_cons.mp hmem with heq | hmemrest
    · subst heq
      simp only [solveTry]
      rw [if_pos hcan]
      have hb1WF : BoardWF (placePiece b pid0 shape0 (tc - cell0.1)
          (tr - cell0.2)) := placePiece_WF hWF _ _ _ _
      have hprune : hasDeadIslands
          (placePiece b pid0 shape0 (tc - cell0.1) (tr - cell0.2))
          (minRemainingSize (cur.erase pid0)) = false :=
        no_dead_islands_of_completes hb1WF hcomp
      rw [if_neg (by simp [hprune])]
      have hne := IHc _ _ sol hb1WF hcomp hlen
      rcases hgo : solveGo fuel (placePiece b pid0 shape0 (tc - cell0.1)
          (tr - cell0.2)) (cur.erase pid0) with ⟨res, b2, cur2⟩
      rw [hgo] at hne
      cases res with
      | some sol' => simp
      | none => exact absurd rfl hne
    · simp only [solveTry]
      by_cases hcan0 : canPlace b shape0 (tc - cell0.1) (tr - cell0.2) = true
      · rw [if_pos hcan0]
        by_cases hpr : hasDeadIslands
            (placePiece b pid0 shape0 (tc - cell0.1) (tr - cell0.2))
            (minRemainingSize (cur.erase pid0)) = true
        · rw [if_pos hpr]
          rw [removePiece_placePiece hWF hcan0]
          exact ih b _ tc tr hWF (hall' _ herase) (hsucc' _ herase hmemrest)
        · rw [if_neg hpr]
          rcases hgo : solveGo fuel (placePiece b pid0 shape0 (tc - cell0.1)
              (tr - cell0.2)) (cur.erase pid0) with ⟨res, b2, cur2⟩
          cases res with
          | some sol' => simp
          | none =>
            have hb2 : b2 = placePiece b pid0 shape0 (tc - cell0.1)
                (tr - cell0.2) := by
              have := solveGo_restores fuel _ _ (placePiece_WF hWF _ _ _ _)
                (by rw [hgo])
              rwa [hgo] at this
            have hcur2 : cur2.Perm (cur.erase pid0) := by
              have := solveGo_none_perm fuel (placePiece b pid0 shape0
                (tc - cell0.1) (tr - cell0.2)) (cur.erase pid0) (by rw [hgo])
              rwa [hgo] at this
            have happ : (cur2 ++ [pid0]).Perm cur :=
              (hcur2.append (List.Perm.refl [pid0])).trans herase
            simp only
            rw [hb2, removePiece_placePiece hWF hcan0]
            exact ih b _ tc tr hWF (hall' _ happ) (hsucc' _ happ hmemrest)
      · rw [if_neg hcan0]
        exact ih b _ tc tr hWF (hall' _ (List.Perm.refl cur))
          (hsucc' _ (List.Perm.refl cur) hmemrest)

/-- Completeness of the fuelled search: a position with an exact
completion and enough fuel never returns `none`. -/
theorem solveGo_complete : ∀ (fuel : Nat) (b : Board) (r : List String)
    (sol : List Placement), BoardWF b → Completes b r sol →
    sol.length < fuel → (solveGo fuel b r).1 ≠ none := by
  intro fuel
  induction fuel with
  | zero => intro b r sol _ _ hlen; omega
  | succ fuel ih =>
    intro b r sol hWF hcomp hlen
    simp only [solveGo]
    rcases hfe : findFirstEmpty b with _ | ⟨tc, tr⟩
    · simp
    · obtain ⟨hg, hnone⟩ := findFirstEmpty_some_spec hfe
      obtain ⟨hv, hfull, hnd, hmemr, htab⟩ := hcomp
      have hcov : ∃ p ∈ sol, (tc, tr) ∈ cellsOf p := by
        by_contra hno
        push_neg at hno
        have hempty : getCell (applyPlacements b sol) tc tr = none :=
          (getCell_applyPlacements hWF hv hg).mpr ⟨hnone, hno⟩
        exact (findFirstEmpty_eq_none_iff _).mp hfull tc tr hg hempty
      obtain ⟨p, hp, hpcell⟩ := hcov
      obtain ⟨cell, hcell, hceq⟩ := List.mem_map.mp hpcell
      rw [Prod.mk.injEq] at hceq
      have hc1 : p.col = tc - cell.1 := by omega
      have hc2 : p.row = tr - cell.2 := by omega
      obtain ⟨hcanp, hcomp'⟩ :=
        Completes_extract hWF ⟨hv, hfull, hnd, hmemr, htab⟩ hp
      have hlen' : (sol.erase p).length < fuel := by
        rw [List.length_erase_of_mem hp]
        have h1 : sol ≠ [] := List.ne_nil_of_mem hp
        have h2 : 0 < sol.length := List.length_pos.mpr h1
        omega
      refine solveTry_complete fuel ih (candidates r) b r tc tr hWF ?_ ?_
      · intro c hc
        obtain ⟨pid, oi, shape, cell'⟩ := c
        exact (candidates_mem hc).1
      · refine ⟨(p.pieceId, p.orientationIndex, p.shape, cell), ?_,
          sol.erase p, ?_, ?_, hlen'⟩
        · exact candidates_mem_of (hmemr p hp) (htab p hp) hcell
        · rw [← hc1, ← hc2]
          exact hcanp
        · rw [← hc1, ← hc2]
          exact hcomp'

theorem getCell_createEmptyBoard (x y : Int) :
    getCell createEmptyBoard x y = none := by
  unfold getCell createEmptyBoard
  split
  · rw [List.getD_eq_getElem?_getD
      (List.replicate 5 (List.replicate 11 (none : Cell))) y.toNat,
      List.getElem?_replicate]
    split_ifs with h1
    · rw [Option.getD_some, List.getD_eq_getElem?_getD,
        List.getElem?_replicate]
      split_ifs with h2
      · rfl
      · rfl
    · simp
  · rfl

/-- C1: on the empty 5×11 board with the full twelve-piece library,
`solve` succeeds, and the returned placements cover every grid cell
exactly once: every cell is covered, every covered cell is a grid
cell, no two placements overlap, and no placement repeats a cell. -/
theorem claim_C1 :
    ∃ sol, solve createEmptyBoard (PIECES.map Piece.id) = some sol ∧
      (∀ x y : Int, inGrid x y → ∃ p ∈ sol, (x, y) ∈ cellsOf p) ∧
      (∀ p ∈ sol, ∀ q ∈ cellsOf p, inGrid q.1 q.2) ∧
      List.Pairwise (fun p q => ∀ z ∈ cellsOf p, z ∉ cellsOf q) sol ∧
      (∀ p ∈ sol, (cellsOf p).Nodup) := by
  have hWF : BoardWF createEmptyBoard := by decide
  have hcomp : Completes createEmptyBoard
      (sortedPieceIds (PIECES.map Piece.id)) refSolution := by decide
  have hlen : refSolution.length <
      (sortedPieceIds (PIECES.map Piece.id)).length + 1 := by decide
  have hne := solveGo_complete _ _ _ _ hWF hcomp hlen
  rw [solve_def, cloneBoard_eq]
  rcases hgo : solveGo ((sortedPieceIds (PIECES.map Piece.id)).length + 1)
      createEmptyBoard (sortedPieceIds (PIECES.map Piece.id))
    with ⟨res, b2, r2⟩
  rw [hgo] at hne
  cases res with
  | none => exact absurd rfl hne
  | some sol =>
    obtain ⟨hv, hfull, hb, hperm, htab⟩ := solveGo_sound _ _ _ _ _ _ hWF hgo
    refine ⟨sol, by simp, ?_, validSeq_inGrid hv,
      validSeq_pairwise_disjoint hWF hv, ?_⟩
    · intro x y hg
      by_contra hno
      push_neg at hno
      have hempty : getCell (applyPlacements createEmptyBoard sol) x y =
          none := (getCell_applyPlacements hWF hv hg).mpr
        ⟨getCell_createEmptyBoard x y, hno⟩
      exact (findFirstEmpty_eq_none_iff _).mp hfull x y hg hempty
    · intro p hp
      have hshape : p.shape ∈ ORIENTATIONS p.pieceId := by
        obtain ⟨hlt, heq⟩ := List.getElem?_eq_some_iff.mp (htab p hp)
        exact heq ▸ List.getElem_mem hlt
      obtain ⟨-, -, hndsh, -⟩ := orient_facts _ _ hshape
      refine List.Nodup.map ?_ hndsh
      intro a b hab
      rw [Prod.mk.injEq] at hab
      rw [Prod.ext_iff]
      constructor
      · have := hab.1; omega
      · have := hab.2; omega

end IQPuzzler
